import Mathlib

/-!
A shallow embedding of `src/model.c` (Wavefront OBJ mesh loader).

Conventions of the embedding.

* A C string is the list of its characters before the terminating NUL
  (`CStr`); a `char *` that may be `NULL` is an `Option CStr`.
* `struct model` keeps its two backing stores as lists of cells whose length
  is the allocated capacity.  `realloc` keeps the old cells and adds cells of
  arbitrary content (written here as zeros); a cell at or beyond the live
  count is never read by the code.
* The counters are natural numbers: the C `int` counters start at 0 and only
  grow by one, and the embedding does not model their overflow at `2^31`
  nor allocation failure (where the C code exits the process).
* Messages written to `stderr` are returned as a list of `Diag` values.
* Coordinates are values of a type `α` in place of `float`: any type with a
  zero for the loader, a linear order for the bounding box.  Normalization is
  written over any type with the arithmetic operations and a comparison: it
  is used with an ordered field (exact arithmetic) and with `float32`, a model
  of the values and the rounded operations of the C type `float`.  `sqrtf`,
  `atof` and `atoi` are C library functions and are parameters of the
  functions that call them.
* `model_init` has no `return` statement, so the pointer that
  `model_load_from_obj` gets from the call `model_init()` is indeterminate in
  C.  The mesh at that pointer is a parameter `made` of `model_load_from_obj`;
  the statements on loading are made for `made = model_init`, the mesh the
  body of `model_init` builds.
* A loop that is not a counted `for` loop carries a bound on its iterations
  (fuel) that is large enough for it to run to its end; the lemmas on each
  loop show that the result is the one of the unbounded loop.
-/

namespace ObjModel

/-! Data model -/

/-- A C string: the characters before the terminating NUL. -/
abbrev CStr := List Char

/-- The messages the code writes to `stderr`. -/
inductive Diag where
  /-- Message `WARN: Invalid vertex index %d.` -/
  | invalid_vertex_index (i : Int)
  /-- Message `ERROR: invalid "v" instruction.` -/
  | invalid_v_instruction
  /-- Message `ERROR: invalid "f" instruction.` -/
  | invalid_f_instruction
  /-- Message `ERROR: failed to load file.` -/
  | failed_to_load_file
  deriving DecidableEq, Repr

/-- Modelled from the spec: the declaration of `vec3` in `model.h` is not among
the sources; the spec gives three components x, y, z. -/
structure vec3 (α : Type) where
  x : α
  y : α
  z : α
  deriving DecidableEq, Repr

/-- Modelled from the spec: the declaration of `struct model` in `model.h` is
not among the sources; the fields are the ones `model.c` uses.  `vertexes` and
`idxs` are the backing stores (all allocated cells), of which the first
`vertex_count` vertices and `3 * faces_count` indices are live. -/
structure model (α : Type) where
  vertex_count : Nat
  vertex_capacity : Nat
  vertexes : List (vec3 α)
  faces_count : Nat
  faces_capacity : Nat
  idxs : List Int
  deriving DecidableEq, Repr

/-- The live vertices of a mesh: cells `0 .. vertex_count - 1` of the store. -/
def model.vertices {α : Type} (m : model α) : List (vec3 α) :=
  m.vertexes.take m.vertex_count

/-- The live face indices of a mesh: cells `0 .. 3 * faces_count - 1`. -/
def model.indices {α : Type} (m : model α) : List Int :=
  m.idxs.take (3 * m.faces_count)

/-- Groups a flat index list into triples. -/
def triples : List Int → List (Int × Int × Int)
  | a :: b :: c :: rest => (a, b, c) :: triples rest
  | _ => []

/-- The live faces of a mesh, as index triples. -/
def model.faces {α : Type} (m : model α) : List (Int × Int × Int) :=
  triples m.indices

/-- The zero vector, `vec3 v = {0}`. -/
def vec3.zero {α : Type} [Zero α] : vec3 α := ⟨0, 0, 0⟩

/-- The C library `realloc` on a store of cells: the result has `n` cells, the
old cells are kept, new cells have arbitrary content `junk`. -/
def realloc {β : Type} (store : List β) (n : Nat) (junk : β) : List β :=
  store.take n ++ List.replicate (n - store.length) junk

/-- A C loop `for (int i = 0; i < n; ++i) body`, whose bound `n` the body does
not change: runs `body 0`, ..., `body (n - 1)` on the state. -/
def for_loop {σ : Type} (body : Nat → σ → σ) : Nat → σ → σ
  | 0, s => s
  | n + 1, s => body n (for_loop body n s)

/-! Mesh store -/

/-- The mesh that the body of `model_init` allocates and initialises: both
capacities 1, both counts 0.  The C function ends without a `return`
statement, so this mesh is what the body builds, not the value of the call
`model_init()`: C leaves that value indeterminate (see `model_load_from_obj`). -/
def model_init {α : Type} [Zero α] : model α :=
  { faces_capacity := 1
    idxs := List.replicate (1 * 3) 0
    faces_count := 0
    vertex_capacity := 1
    vertexes := List.replicate 1 vec3.zero
    vertex_count := 0 }

/-- Function `model_add_vertex`: doubles the store when it is full, then writes
`vec` at cell `vertex_count` and increments the count. -/
def model_add_vertex {α : Type} [Zero α] (m : model α) (vec : vec3 α) : model α :=
  let m1 : model α :=
    if m.vertex_count = m.vertex_capacity then
      { m with
        vertex_capacity := m.vertex_capacity * 2
        vertexes := realloc m.vertexes (m.vertex_capacity * 2) vec3.zero }
    else m
  { m1 with
    vertexes := m1.vertexes.set m1.vertex_count vec
    vertex_count := m1.vertex_count + 1 }

/-- The four ways control can leave `relativize_idx`. -/
inductive relativize_path where
  /-- Branch `i < -n || i == 0`: warning, `return 0`. -/
  | invalid
  /-- Branch `i > 0`: `return i - 1`. -/
  | positive
  /-- Branch `i < 0`: `return n + i`. -/
  | negative
  /-- The end of the function body, reached without a `return`. -/
  | fall_through
  deriving DecidableEq, Repr

/-- The branch of `relativize_idx` taken on `(i, n)`. -/
def relativize_idx_path (i n : Int) : relativize_path :=
  if i < -n ∨ i = 0 then relativize_path.invalid
  else if i > 0 then relativize_path.positive
  else if i < 0 then relativize_path.negative
  else relativize_path.fall_through

/-- Function `relativize_idx`: the returned index and the warning written.  At the
fall-through end C returns an unspecified value, written 0 here. -/
def relativize_idx (i n : Int) : Int × List Diag :=
  match relativize_idx_path i n with
  | relativize_path.invalid => (0, [Diag.invalid_vertex_index i])
  | relativize_path.positive => (i - 1, [])
  | relativize_path.negative => (n + i, [])
  | relativize_path.fall_through => (0, [])

/-- The body of the loop of `model_validate_idxs`; the state is the flag
`valid`, the mesh and the warnings written so far. -/
def validate_body {α : Type} (i : Nat) (s : Bool × model α × List Diag) :
    Bool × model α × List Diag :=
  if s.2.1.idxs.getD i 0 ≥ (s.2.1.vertex_count : Int) then
    (false, { s.2.1 with idxs := s.2.1.idxs.set i 0 },
      s.2.2 ++ [Diag.invalid_vertex_index (s.2.1.idxs.getD i 0)])
  else s

/-- Function `model_validate_idxs`: the returned flag, the repaired mesh and the
warnings written. -/
def model_validate_idxs {α : Type} (m : model α) : Bool × model α × List Diag :=
  for_loop validate_body (3 * m.faces_count) (true, m, [])

/-- Function `model_add_face`: the new mesh and the warnings written. -/
def model_add_face {α : Type} (m : model α) (idx1 idx2 idx3 : Int) :
    model α × List Diag :=
  let m1 : model α :=
    if m.faces_count = m.faces_capacity then
      { m with
        faces_capacity := m.faces_capacity * 2
        idxs := realloc m.idxs (3 * (m.faces_capacity * 2)) 0 }
    else m
  let r1 := relativize_idx idx1 m1.vertex_count
  let r2 := relativize_idx idx2 m1.vertex_count
  let r3 := relativize_idx idx3 m1.vertex_count
  ({ m1 with
      idxs := ((m1.idxs.set (3 * m1.faces_count + 0) r1.1).set
        (3 * m1.faces_count + 1) r2.1).set (3 * m1.faces_count + 2) r3.1
      faces_count := m1.faces_count + 1 },
    r1.2 ++ r2.2 ++ r3.2)

/-- The body of the loop of `model_bounding_box`; the state is `(min, max)`. -/
def bounding_box_body {α : Type} [Zero α] [LT α] [DecidableRel (fun a b : α => a < b)]
    (m : model α) (i : Nat) (s : vec3 α × vec3 α) : vec3 α × vec3 α :=
  let v := m.vertexes.getD i vec3.zero
  let min := s.1
  let max := s.2
  let min := if v.x < min.x then { min with x := v.x } else min
  let min := if v.y < min.y then { min with y := v.y } else min
  let min := if v.z < min.z then { min with z := v.z } else min
  let max := if v.x > max.x then { max with x := v.x } else max
  let max := if v.y > max.y then { max with y := v.y } else max
  let max := if v.z > max.z then { max with z := v.z } else max
  (min, max)

/-- Function `model_bounding_box`: the pair `(*minp, *maxp)`. -/
def model_bounding_box {α : Type} [Zero α] [LT α] [DecidableRel (fun a b : α => a < b)]
    (m : model α) : vec3 α × vec3 α :=
  let start : vec3 α × vec3 α :=
    if m.vertex_count > 0 then
      (m.vertexes.getD 0 vec3.zero, m.vertexes.getD 0 vec3.zero)
    else (vec3.zero, vec3.zero)
  for_loop (bounding_box_body m) m.vertex_count start

/-- A division that fails on a zero divisor. -/
def checked_div {α : Type} [Zero α] [Div α] [DecidableEq α] (a b : α) : Option α :=
  if b = 0 then none else some (a / b)

/-- The value `diameter` of `model_normalize`, from the bounding box. -/
def normalize_diameter {α : Type} [Add α] [Sub α] [Mul α] (sqrtf : α → α)
    (min max : vec3 α) : α :=
  sqrtf ((min.x - max.x) * (min.x - max.x) + (min.y - max.y) * (min.y - max.y)
    + (min.z - max.z) * (min.z - max.z))

/-- The value `scale` of `model_normalize`:
`diameter == 0 ? 1.0 : 2.0 / diameter`; `none` is a division by zero. -/
def normalize_scale {α : Type} [Zero α] [One α] [OfNat α 2] [Div α] [DecidableEq α]
    (diameter : α) : Option α :=
  if diameter = 0 then some 1 else checked_div 2 diameter

/-- The body of the loop of `model_normalize`. -/
def normalize_body {α : Type} [Zero α] [Sub α] [Mul α] (center : vec3 α) (scale : α)
    (i : Nat) (m : model α) : model α :=
  let v := m.vertexes.getD i vec3.zero
  { m with
    vertexes := m.vertexes.set i
      ⟨(v.x - center.x) * scale, (v.y - center.y) * scale, (v.z - center.z) * scale⟩ }

/-- Function `model_normalize`, over a number type given with its arithmetic,
its comparison and the square root function `sqrtf`: this is exact arithmetic
when the numbers are an ordered field such as the reals, and the arithmetic
of the C type `float` when they are `float32`.  The result is `none` if the
code divided by zero. -/
def model_normalize {α : Type} [Zero α] [One α] [OfNat α 2] [Add α] [Sub α] [Mul α] [Div α]
    [LT α] [DecidableRel (fun a b : α => a < b)] [DecidableEq α]
    (sqrtf : α → α) (m : model α) : Option (model α) :=
  let bb := model_bounding_box m
  let min := bb.1
  let max := bb.2
  let diameter := normalize_diameter sqrtf min max
  match normalize_scale diameter with
  | none => none
  | some scale =>
    let center : vec3 α :=
      ⟨(min.x + max.x) / 2, (min.y + max.y) / 2, (min.z + max.z) / 2⟩
    some (for_loop (normalize_body center scale) m.vertex_count m)

/-! Line tokenizer -/

/-- The scanning loop of `str_chop`.  `seen` holds the characters from `ret` up
to `p`, `rest` the characters from `p` on, and `delim_i` is the C variable of
that name.  The result is the returned token and the new value of `*str`. -/
def str_chop_scan (delim : CStr) : CStr → Nat → CStr → CStr × Option CStr
  | seen, _, [] => (seen, none)
  | seen, delim_i, c :: rest =>
    let delim_j := if delim[delim_i]? = some c then delim_i + 1 else 0
    if delim_j = delim.length then
      ((seen ++ [c]).take ((seen ++ [c]).length - delim_j), some rest)
    else str_chop_scan delim (seen ++ [c]) delim_j rest

/-- Function `str_chop`: the returned token (`none` for `NULL`) and the new
cursor `*str`.  The assertion `*delim != 0` is the precondition `h`. -/
def str_chop (str : Option CStr) (delim : CStr) (_h : delim ≠ []) :
    Option CStr × Option CStr :=
  match str with
  | none => (none, none)
  | some s => ((str_chop_scan delim [] 0 s).1, (str_chop_scan delim [] 0 s).2)

/-- The loop of `str_chop_skip_empty`, with a bound on the number of
iterations (at fuel 0 the loop is cut and nothing is returned). -/
def str_chop_skip_empty_loop (delim : CStr) (h : delim ≠ []) :
    Nat → Option CStr → Option CStr × Option CStr
  | 0, str => (none, str)
  | fuel + 1, str =>
    match str_chop str delim h with
    | (none, str1) => (none, str1)
    | (some res, str1) =>
      if res ≠ [] then (some res, str1)
      else str_chop_skip_empty_loop delim h fuel str1

/-- The number of characters left at a cursor. -/
def cursor_length : Option CStr → Nat
  | none => 0
  | some s => s.length

/-- Function `str_chop_skip_empty`: the loop is run with as many iterations as
it can need, two more than the characters left. -/
def str_chop_skip_empty (str : Option CStr) (delim : CStr) (h : delim ≠ []) :
    Option CStr × Option CStr :=
  str_chop_skip_empty_loop delim h (cursor_length str + 2) str

/-- The delimiter `" "`. -/
def delim_space : CStr := [' ']

/-- The delimiter `"/"`. -/
def delim_slash : CStr := ['/']

/-- Function `parse_float`: the value stored in `*f` on success (`none` when
the function returns false) and the new cursor `*buffer`.  The inner
`str_chop(&arg, "/")` is called on a string that is not `NULL` and so returns
one; the last branch of the inner match is never taken. -/
def parse_float {α : Type} (atof : CStr → α) (buffer : Option CStr) :
    Option α × Option CStr :=
  match str_chop_skip_empty buffer delim_space (by decide) with
  | (none, buffer1) => (none, buffer1)
  | (some arg, buffer1) =>
    match str_chop (some arg) delim_slash (by decide) with
    | (some f_str, _) => (some (atof f_str), buffer1)
    | (none, _) => (none, buffer1)

/-- Function `parse_int`: the value stored in `*i` on success (`none` when the
function returns false) and the new cursor `*buffer`.  As in `parse_float`,
the last branch of the inner match is never taken. -/
def parse_int (atoi : CStr → Int) (buffer : Option CStr) :
    Option Int × Option CStr :=
  match str_chop_skip_empty buffer delim_space (by decide) with
  | (none, buffer1) => (none, buffer1)
  | (some arg, buffer1) =>
    match str_chop (some arg) delim_slash (by decide) with
    | (some i_str, _) => (some (atoi i_str), buffer1)
    | (none, _) => (none, buffer1)

/-! OBJ parser -/

/-- The loop `while (parse_int(&bufferp, &i3))` of the `f` branch, with a bound
on the number of iterations; the state is the mesh and the warnings. -/
def face_loop {α : Type} (atoi : CStr → Int) (i1 : Int) :
    Nat → Int → Option CStr → model α → model α × List Diag
  | 0, _, _, m => (m, [])
  | fuel + 1, i2, bufferp, m =>
    match parse_int atoi bufferp with
    | (none, _) => (m, [])
    | (some i3, bufferp1) =>
      let r := model_add_face m i1 i2 i3
      let r1 := face_loop atoi i1 fuel i3 bufferp1 r.1
      (r1.1, r.2 ++ r1.2)

/-- The body of the line loop of `model_load_from_obj` on the line in
`buffer`: `none` when the function returns `NULL` from inside the loop. -/
def process_line {α : Type} [Zero α] (atof : CStr → α) (atoi : CStr → Int)
    (m : model α) (buffer : CStr) : Option (model α) × List Diag :=
  match str_chop_skip_empty (some buffer) delim_space (by decide) with
  | (none, _) => (some m, [])
  | (some instr, bufferp) =>
    if instr.head? = some '#' then (some m, [])
    else if instr = ['v'] then
      match parse_float atof bufferp with
      | (none, _) => (none, [Diag.invalid_v_instruction])
      | (some f1, bufferp1) =>
        match parse_float atof bufferp1 with
        | (none, _) => (none, [Diag.invalid_v_instruction])
        | (some f2, bufferp2) =>
          match parse_float atof bufferp2 with
          | (none, _) => (none, [Diag.invalid_v_instruction])
          | (some f3, _) => (some (model_add_vertex m ⟨f1, f2, f3⟩), [])
    else if instr = ['f'] then
      match parse_int atoi bufferp with
      | (none, _) => (none, [Diag.invalid_f_instruction])
      | (some i1, bufferp1) =>
        match parse_int atoi bufferp1 with
        | (none, _) => (none, [Diag.invalid_f_instruction])
        | (some i2, bufferp2) =>
          let r := face_loop atoi i1 (cursor_length bufferp2 + 1) i2 bufferp2 m
          (some r.1, r.2)
    else (some m, [])

/-- The C library `fgets(buffer, size, fp)` on the unread characters of the
file, `room` being `size - 1`: the characters read (up to and including the
first newline, at most `room`) and the characters left unread. -/
def fgets : Nat → List Char → List Char × List Char
  | 0, cs => ([], cs)
  | _ + 1, [] => ([], [])
  | room + 1, c :: cs =>
    if c = '\n' then ([c], cs)
    else ((c :: (fgets room cs).1), (fgets room cs).2)

/-- The successive results of `fgets(buffer, 256, fp)` until it returns `NULL`
at the end of the file, with a bound on the number of calls. -/
def read_buffers : Nat → List Char → List (List Char)
  | 0, _ => []
  | _ + 1, [] => []
  | fuel + 1, c :: cs =>
    (fgets 255 (c :: cs)).1 :: read_buffers fuel (fgets 255 (c :: cs)).2

/-- The buffer contents as a C string: it ends at the first NUL. -/
def buffer_cstr (buffer : List Char) : CStr :=
  buffer.takeWhile (fun c => c ≠ Char.ofNat 0)

/-- The lines the loop of `model_load_from_obj` sees: one per successful
`fgets`, each read as a C string. -/
def file_lines (content : List Char) : List CStr :=
  (read_buffers content.length content).map buffer_cstr

/-- The line loop of `model_load_from_obj`, over the lines read. -/
def load_loop {α : Type} [Zero α] (atof : CStr → α) (atoi : CStr → Int) :
    List CStr → model α → Option (model α) × List Diag
  | [], m => (some m, [])
  | buffer :: more, m =>
    match process_line atof atoi m buffer with
    | (none, e) => (none, e)
    | (some m1, e) =>
      ((load_loop atof atoi more m1).1, e ++ (load_loop atof atoi more m1).2)

/-- Function `model_load_from_obj`.  `file` is what `fopen` gives: `none` when
the file cannot be opened, else its content.  `made` is the mesh at the
pointer that the call `model_init()` yields, on which the function works from
then on.  Since `model_init` has no `return` statement, C leaves this pointer
indeterminate: `made` is a parameter, it equals `model_init` in the
executions in which the call yields the mesh that `model_init` built, and
executions in which the pointer does not point to a mesh (undefined
behaviour) are not described.  The result is the returned mesh (`none` for
`NULL`) and the messages written. -/
def model_load_from_obj {α : Type} [Zero α] (atof : CStr → α) (atoi : CStr → Int)
    (made : model α) (file : Option (List Char)) : Option (model α) × List Diag :=
  match file with
  | none => (none, [Diag.failed_to_load_file])
  | some content =>
    match load_loop atof atoi (file_lines content) made with
    | (none, e) => (none, e)
    | (some m, e) =>
      (some (model_validate_idxs m).2.1, e ++ (model_validate_idxs m).2.2)

/-! Definitions used to state the properties -/

/-- The repair of `model_validate_idxs` on one stored index: an index that is
at least the vertex count becomes 0. -/
def repair_index (vertex_count : Nat) (x : Int) : Int :=
  if x ≥ (vertex_count : Int) then 0 else x

/-- A mesh whose stores hold its live cells: the capacities are at least 1,
the counts are within the capacities and each store has as many cells as its
capacity says. -/
structure model.well_formed {α : Type} (m : model α) : Prop where
  vertex_pos : 1 ≤ m.vertex_capacity
  vertex_le : m.vertex_count ≤ m.vertex_capacity
  vertex_store : m.vertexes.length = m.vertex_capacity
  faces_pos : 1 ≤ m.faces_capacity
  faces_le : m.faces_count ≤ m.faces_capacity
  faces_store : m.idxs.length = 3 * m.faces_capacity

/-- A sample mesh over the integers: two vertices, one face whose second index
is out of range. -/
def sample_mesh : model Int :=
  { vertex_count := 2
    vertex_capacity := 2
    vertexes := [⟨0, 0, 0⟩, ⟨1, 2, 3⟩]
    faces_count := 1
    faces_capacity := 1
    idxs := [0, 5, 1] }

/-- The value `a` is a least element of the list: below every element and one
of them. -/
def is_least_of {α : Type} [LE α] (a : α) (l : List α) : Prop :=
  (∀ b ∈ l, a ≤ b) ∧ a ∈ l

/-- The value `a` is a greatest element of the list: above every element and
one of them. -/
def is_greatest_of {α : Type} [LE α] (a : α) (l : List α) : Prop :=
  (∀ b ∈ l, b ≤ a) ∧ a ∈ l

/-- The result of the loop of `model_bounding_box` written as folds over a list
of vertices, started at its first vertex. -/
def list_bounding_box {α : Type} [Zero α] [LinearOrder α] :
    List (vec3 α) → vec3 α × vec3 α
  | [] => (vec3.zero, vec3.zero)
  | v :: vs =>
    (⟨((v :: vs).map vec3.x).foldl (fun acc b => min b acc) v.x,
      ((v :: vs).map vec3.y).foldl (fun acc b => min b acc) v.y,
      ((v :: vs).map vec3.z).foldl (fun acc b => min b acc) v.z⟩,
     ⟨((v :: vs).map vec3.x).foldl (fun acc b => max b acc) v.x,
      ((v :: vs).map vec3.y).foldl (fun acc b => max b acc) v.y,
      ((v :: vs).map vec3.z).foldl (fun acc b => max b acc) v.z⟩)

/-- A sample mesh with the live vertices (-1,0,0), (1,2,0), (0,0,-3) and one
unused cell in the vertex store. -/
def sample_box_mesh : model Int :=
  { vertex_count := 3
    vertex_capacity := 4
    vertexes := [⟨-1, 0, 0⟩, ⟨1, 2, 0⟩, ⟨0, 0, -3⟩, ⟨7, 7, 7⟩]
    faces_count := 0
    faces_capacity := 1
    idxs := [0, 0, 0] }

/-- The update `model_normalize` makes to one vertex: subtract the center, then
multiply by the scale. -/
def normalize_vertex {α : Type} [Sub α] [Mul α] (center : vec3 α) (scale : α) (v : vec3 α) :
    vec3 α :=
  ⟨(v.x - center.x) * scale, (v.y - center.y) * scale, (v.z - center.z) * scale⟩

/-- The center `model_normalize` computes from the bounding box. -/
def normalize_center {α : Type} [Add α] [Div α] [OfNat α 2] (min max : vec3 α) : vec3 α :=
  ⟨(min.x + max.x) / 2, (min.y + max.y) / 2, (min.z + max.z) / 2⟩

/-- The text before the first occurrence of the character `d`, and the text
after that occurrence (`none` if `d` does not occur). -/
def split_first (d : Char) : CStr → CStr × Option CStr
  | [] => ([], none)
  | c :: cs =>
    if c = d then ([], some cs)
    else (c :: (split_first d cs).1, (split_first d cs).2)

/-- The non-empty pieces obtained by splitting the text at every occurrence
of the character `d`. -/
def pieces (d : Char) (s : CStr) : List CStr :=
  (s.splitOnP (fun c => c == d)).filter (fun t => t ≠ [])

/-- The fields of a line: the maximal runs of characters other than the space
character. -/
def fields (line : CStr) : List CStr := pieces ' ' line

/-- The pieces still to come at a cursor. -/
def cursor_pieces (d : Char) : Option CStr → List CStr
  | none => []
  | some s => pieces d s

/-- The part of a field before its first `/`. -/
def before_slash (field : CStr) : CStr := (split_first '/' field).1

/-- The faces added by the `f` branch for the index values still to come on the
line: one call of `model_add_face` per value, the previous value shifting into
the second place. -/
def add_fan {α : Type} (i1 : Int) : Int → List Int → model α → model α × List Diag
  | _, [], m => (m, [])
  | i2, i3 :: more, m =>
    ((add_fan i1 i3 more (model_add_face m i1 i2 i3).1).1,
      (model_add_face m i1 i2 i3).2 ++ (add_fan i1 i3 more (model_add_face m i1 i2 i3).1).2)

/-- The effect of one line on the mesh, as a function of the fields of the
line: the keyword dispatch of `model_load_from_obj`. -/
def line_effect {α : Type} [Zero α] (atof : CStr → α) (atoi : CStr → Int) (m : model α) :
    List CStr → Option (model α) × List Diag
  | [] => (some m, [])
  | instr :: args =>
    if instr.head? = some '#' then (some m, [])
    else if instr = ['v'] then
      match args with
      | a :: b :: c :: _ =>
        (some (model_add_vertex m
          ⟨atof (before_slash a), atof (before_slash b), atof (before_slash c)⟩), [])
      | _ => (none, [Diag.invalid_v_instruction])
    else if instr = ['f'] then
      match args with
      | a :: b :: rest =>
        (some (add_fan (atoi (before_slash a)) (atoi (before_slash b))
            (rest.map (fun t => atoi (before_slash t))) m).1,
          (add_fan (atoi (before_slash a)) (atoi (before_slash b))
            (rest.map (fun t => atoi (before_slash t))) m).2)
      | _ => (none, [Diag.invalid_f_instruction])
    else (some m, [])

/-- The index `relativize_idx` returns for `i` when `n` vertices are declared. -/
def resolve (n : Nat) (i : Int) : Int := (relativize_idx i n).1

/-- The argument triples of the calls of `model_add_face` made for the index
values `i1`, `i2` and the values still to come. -/
def fan_triples (i1 : Int) : Int → List Int → List (Int × Int × Int)
  | _, [] => []
  | i2, i3 :: more => (i1, i2, i3) :: fan_triples i1 i3 more

/-- The fan triangulation of the polygon with the 1-based corner indices
`a`: the 0-based triangles `(a1, aj, a(j+1))` for `j = 2 .. k - 1`. -/
def fan_faces (a : List Int) : List (Int × Int × Int) :=
  (List.range (a.length - 2)).map
    (fun j => (a.getD 0 0 - 1, a.getD (j + 1) 0 - 1, a.getD (j + 2) 0 - 1))

/-- The stored face for an argument triple of `model_add_face` when `n`
vertices are declared. -/
def resolve_triple (n : Nat) (t : Int × Int × Int) : Int × Int × Int :=
  (resolve n t.1, resolve n t.2.1, resolve n t.2.2)

/-- The vertex a line declares, from the fields of the line: keyword `v` and
the first three fields after it. -/
def line_vertex {α : Type} (atof : CStr → α) : List CStr → Option (vec3 α)
  | instr :: a :: b :: c :: _ =>
    if instr = ['v'] then
      some ⟨atof (before_slash a), atof (before_slash b), atof (before_slash c)⟩
    else none
  | _ => none

/-- The line is a `v` line with fewer than three fields after the keyword or
an `f` line with fewer than two fields after the keyword. -/
def malformed_line (line : CStr) : Prop :=
  (∃ args, fields line = ['v'] :: args ∧ args.length < 3) ∨
  (∃ args, fields line = ['f'] :: args ∧ args.length < 2)

/-- The C library predicate `isspace` in the C locale. -/
def libc_isspace (c : Char) : Bool :=
  c = ' ' || (9 ≤ c.toNat && c.toNat ≤ 13)

/-- The value of the leading decimal digits of a string, continuing from the
value `acc`. -/
def digits_value : Nat → CStr → Nat
  | acc, [] => acc
  | acc, c :: cs =>
    if c.isDigit then digits_value (acc * 10 + (c.toNat - 48)) cs else acc

/-- The C library `strtol(s, NULL, 10)` with a 64-bit `long`: leading white
space, an optional sign, then decimal digits; the value is clamped to the range
of `long`, and is 0 when there is no digit. -/
def libc_strtol (s : CStr) : Int :=
  match s.dropWhile libc_isspace with
  | '-' :: r => max (-(2 : Int) ^ 63) (-(digits_value 0 r : Int))
  | '+' :: r => min ((2 : Int) ^ 63 - 1) (digits_value 0 r : Int)
  | r => min ((2 : Int) ^ 63 - 1) (digits_value 0 r : Int)

/-- The C library `atoi` as glibc defines it, `(int) strtol(s, NULL, 10)`: the
`long` value is reduced to 32 bits. -/
def libc_atoi (s : CStr) : Int :=
  (libc_strtol s + 2 ^ 31) % 2 ^ 32 - 2 ^ 31

/-- A sample file: four vertices and the quad `f 1 2 3 4`. -/
def quad_file : List Char :=
  "v 0 0 0\nv 1 0 0\nv 0 1 0\nv 0 0 1\nf 1 2 3 4\n".toList

/-- The mesh that loading `quad_file` gives when every coordinate is read as an
integer. -/
def quad_mesh : model Int :=
  { vertex_count := 4
    vertex_capacity := 4
    vertexes := [⟨0, 0, 0⟩, ⟨1, 0, 0⟩, ⟨0, 1, 0⟩, ⟨0, 0, 1⟩]
    faces_count := 2
    faces_capacity := 2
    idxs := [0, 1, 2, 0, 2, 3] }

/-- A stand-in for the C library `atof` on fields that are decimal integers:
the integer `atoi` reads, as a coordinate. -/
def atof_integer (s : CStr) : Int := libc_atoi s

/-- The mesh that loading the one-line file `f 1 2 3` gives: no vertex, one
face whose indices were all repaired to 0. -/
def no_vertex_mesh : model Int :=
  { vertex_count := 0
    vertex_capacity := 1
    vertexes := [⟨0, 0, 0⟩]
    faces_count := 1
    faces_capacity := 1
    idxs := [0, 0, 0] }

/-- The mesh after the four `v` lines of `quad_file`, before its `f` line. -/
def four_vertex_mesh : model Int :=
  { vertex_count := 4
    vertex_capacity := 4
    vertexes := [⟨0, 0, 0⟩, ⟨1, 0, 0⟩, ⟨0, 1, 0⟩, ⟨0, 0, 1⟩]
    faces_count := 0
    faces_capacity := 1
    idxs := [0, 0, 0] }

/-- The face line of `quad_file`, as `fgets` reads it. -/
def quad_face_line : CStr := "f 1 2 3 4\n".toList

/-- The fields after the keyword on `quad_face_line`; the last one holds the
line terminator. -/
def quad_face_fields : List CStr := ["1".toList, "2".toList, "3".toList, "4\n".toList]

/-- The lines of a text: the pieces between its newline characters. -/
def text_lines (content : List Char) : List (List Char) :=
  content.splitOnP (fun c => c == '\n')

/-- A file of one line of 258 characters, a comment: `#`, 254 spaces, then the
text `v 1`. -/
def long_comment_file : List Char :=
  '#' :: (List.replicate 254 ' ' ++ "v 1\n".toList)

/-- A file of one line of 262 characters, a comment: `#`, 254 spaces, then the
text `v 1 2 3`. -/
def long_comment_vertex_file : List Char :=
  '#' :: (List.replicate 254 ' ' ++ "v 1 2 3\n".toList)

/-- The white space of the spec: space, tab, carriage return and newline. -/
def is_whitespace (c : Char) : Bool :=
  c = ' ' || c = '\t' || c = '\r' || c = '\n'

/-- The fields of a line as the spec words them: the maximal runs of
characters that are not white space. -/
def spec_fields (line : List Char) : List (List Char) :=
  (line.splitOnP is_whitespace).filter (fun t => t ≠ [])

/-- The tokens that repeated calls of `str_chop_skip_empty` on one cursor yield
until a call yields nothing, and the cursor after that call; `fuel` bounds the
number of calls. -/
def chop_all (delim : CStr) (h : delim ≠ []) : Nat → Option CStr → List CStr × Option CStr
  | 0, cur => ([], cur)
  | fuel + 1, cur =>
    match str_chop_skip_empty cur delim h with
    | (none, cur1) => ([], cur1)
    | (some tok, cur1) => (tok :: (chop_all delim h fuel cur1).1, (chop_all delim h fuel cur1).2)

/-- The decimal text of an integer: a minus sign if it is negative, then the
decimal digits of its absolute value. -/
def int_text (a : Int) : CStr :=
  if a < 0 then '-' :: Nat.toDigits 10 a.natAbs else Nat.toDigits 10 a.toNat

/-- What follows the index in the sample field `-2/5/7`. -/
def sample_subfields : CStr := "/5/7".toList

/-- A cursor at the sample field `-2/5/7`, with the field `9` after it. -/
def sample_cursor : Option CStr := some "-2/5/7 9".toList

/-- A call of one of the two functions that append to the stores. -/
inductive store_op (α : Type) where
  /-- A call `model_add_vertex(model, vec)`. -/
  | add_vertex (vec : vec3 α)
  /-- A call `model_add_face(model, idx1, idx2, idx3)`. -/
  | add_face (idx1 idx2 idx3 : Int)

/-- The mesh after one call. -/
def apply_op {α : Type} [Zero α] (m : model α) : store_op α → model α
  | store_op.add_vertex vec => model_add_vertex m vec
  | store_op.add_face idx1 idx2 idx3 => (model_add_face m idx1 idx2 idx3).1

/-- The mesh after a sequence of calls, made in the order of the list. -/
def run_ops {α : Type} [Zero α] (m : model α) (ops : List (store_op α)) : model α :=
  ops.foldl apply_op m

/-- A file of three vertices and the face `f -1 -2 -3`. -/
def negative_face_file : List Char :=
  "v 0 0 0\nv 1 0 0\nv 0 1 0\nf -1 -2 -3\n".toList

/-- A file of the same three vertices and the face `f 3 2 1`. -/
def positive_face_file : List Char :=
  "v 0 0 0\nv 1 0 0\nv 0 1 0\nf 3 2 1\n".toList

/-- The faces a line stores when `n` vertices are declared, from the fields of
the line: keyword `f`, then the fan over the index values of the fields, each
resolved against `n`. -/
def line_faces (atoi : CStr → Int) (n : Nat) : List CStr → List (Int × Int × Int)
  | instr :: a :: b :: rest =>
    if instr = ['f'] then
      (fan_triples (atoi (before_slash a)) (atoi (before_slash b))
        (rest.map (fun t => atoi (before_slash t)))).map (resolve_triple n)
    else []
  | _ => []

/-- The faces the lines store one after the other, `n` being the number of
vertices declared before the first of them; a line with the keyword `v` raises
the number by one for the lines after it. -/
def lines_faces (atoi : CStr → Int) : Nat → List CStr → List (Int × Int × Int)
  | _, [] => []
  | n, line :: more =>
    line_faces atoi n (fields line) ++
      lines_faces atoi (if (fields line).head? = some ['v'] then n + 1 else n) more

/-- The repair of `model_validate_idxs` on the three indices of a face. -/
def repair_triple (vertex_count : Nat) (t : Int × Int × Int) : Int × Int × Int :=
  (repair_index vertex_count t.1, repair_index vertex_count t.2.1,
    repair_index vertex_count t.2.2)

/-- A file in which the face line refers to the second vertex before that
vertex is declared. -/
def forward_reference_file : List Char :=
  "v 0 0 0\nf 1 1 2\nv 1 1 1\n".toList

/-- A value of the C type `float`.  A finite value is given by the integer `k`
for which it is `k * 2^(-149)`: every finite `float` is such a multiple, the
largest being `(2^24 - 1) * 2^253` units of `2^(-149)`.  Not every `k` stands
for a `float`: the results of `float32.round` are those that do.  The two
zeros are one value here (they compare equal in C), and so are all NaNs. -/
inductive float32 where
  | finite (k : Int)
  | infinite (negative : Bool)
  | nan
  deriving DecidableEq, Repr

/-- Rounding to `float`, to nearest with ties to even: the `float` nearest to
the number `n / d` of units `2^(-149)`, taken with the sign given (`d > 0`).
With `j` the least exponent for which `n / d < 2^(24 + j)`, the floats around
`n / d` are the multiples of `2^j` units; a result of `2^24 * 2^253` units or
more, that is, of magnitude `2^128` or more, is an infinity. -/
def float32.round (negative : Bool) (n d : Nat) : float32 :=
  match (List.range 254).find? (fun j => decide (n < d * (2 ^ 24 * 2 ^ j))) with
  | none => float32.infinite negative
  | some j =>
    let q := n / (d * 2 ^ j)
    let r := n % (d * 2 ^ j)
    let k :=
      if 2 * r < d * 2 ^ j then q
      else if d * 2 ^ j < 2 * r then q + 1
      else if q % 2 = 0 then q else q + 1
    if 2 ^ 24 * 2 ^ 253 ≤ k * 2 ^ j then float32.infinite negative
    else float32.finite
      (if negative then -((k * 2 ^ j : Nat) : Int) else ((k * 2 ^ j : Nat) : Int))

/-- The negation of a `float`. -/
def float32.neg : float32 → float32
  | float32.finite k => float32.finite (-k)
  | float32.infinite s => float32.infinite (!s)
  | float32.nan => float32.nan

/-- The sum of two `float`s: the exact sum, rounded. -/
def float32.add : float32 → float32 → float32
  | float32.finite a, float32.finite b =>
    float32.round (decide (a + b < 0)) (a + b).natAbs 1
  | float32.finite _, float32.infinite s => float32.infinite s
  | float32.infinite s, float32.finite _ => float32.infinite s
  | float32.infinite s, float32.infinite t =>
    if s = t then float32.infinite s else float32.nan
  | float32.nan, _ => float32.nan
  | _, float32.nan => float32.nan

/-- The difference of two `float`s. -/
def float32.sub (a b : float32) : float32 := float32.add a (float32.neg b)

/-- The product of two `float`s: the exact product, rounded. -/
def float32.mul : float32 → float32 → float32
  | float32.finite a, float32.finite b =>
    float32.round (decide (a * b < 0)) (a * b).natAbs (2 ^ 149)
  | float32.finite a, float32.infinite s =>
    if a = 0 then float32.nan else float32.infinite (xor s (decide (a < 0)))
  | float32.infinite s, float32.finite b =>
    if b = 0 then float32.nan else float32.infinite (xor s (decide (b < 0)))
  | float32.infinite s, float32.infinite t => float32.infinite (xor s t)
  | float32.nan, _ => float32.nan
  | _, float32.nan => float32.nan

/-- The quotient of two `float`s: the exact quotient, rounded.  (A quotient that
C computes in `double` from `float` operands and then stores in a `float` is
the same value.) -/
def float32.div : float32 → float32 → float32
  | float32.finite a, float32.finite b =>
    if b = 0 then
      if a = 0 then float32.nan else float32.infinite (decide (a < 0))
    else float32.round (decide (a * b < 0)) (a.natAbs * 2 ^ 149) b.natAbs
  | float32.finite _, float32.infinite _ => float32.finite 0
  | float32.infinite s, float32.finite b => float32.infinite (xor s (decide (b < 0)))
  | float32.infinite _, float32.infinite _ => float32.nan
  | float32.nan, _ => float32.nan
  | _, float32.nan => float32.nan

/-- The comparison `a < b` of two `float`s; it is false when one is a NaN. -/
def float32.lt : float32 → float32 → Bool
  | float32.finite a, float32.finite b => decide (a < b)
  | float32.finite _, float32.infinite s => !s
  | float32.infinite s, float32.finite _ => s
  | float32.infinite s, float32.infinite t => s && !t
  | float32.nan, _ => false
  | _, float32.nan => false

/-- The C library `sqrtf`: the square root, rounded to nearest with ties to
even.  For `k` units the root is the square root of `k * 2^149`, in units; with
`j` the least exponent for which it is below `2^(24 + j)`, which exists for
every `float`, it is rounded to a multiple of `2^j`. -/
def float32.sqrtf : float32 → float32
  | float32.finite k =>
    if k < 0 then float32.nan
    else if k = 0 then float32.finite 0
    else
      let n := k.natAbs * 2 ^ 149
      match (List.range 254).find? (fun j => decide (n < 2 ^ 48 * 4 ^ j)) with
      | none => float32.nan
      | some j =>
        let s := Nat.sqrt (n / 4 ^ j)
        let r :=
          if 4 * n < 4 ^ j * ((2 * s + 1) * (2 * s + 1)) then s
          else if 4 ^ j * ((2 * s + 1) * (2 * s + 1)) < 4 * n then s + 1
          else if s % 2 = 0 then s else s + 1
        float32.finite ((r * 2 ^ j : Nat) : Int)
  | float32.infinite s => if s then float32.nan else float32.infinite false
  | float32.nan => float32.nan

/-- The `float` 0. -/
instance : Zero float32 := ⟨float32.finite 0⟩

/-- The `float` 1.0, which is `2^149` units. -/
instance : One float32 := ⟨float32.finite (2 ^ 149)⟩

/-- The `float` 2.0, which is `2^150` units. -/
instance : OfNat float32 2 := ⟨float32.finite (2 ^ 150)⟩

instance : Add float32 := ⟨float32.add⟩

instance : Sub float32 := ⟨float32.sub⟩

instance : Mul float32 := ⟨float32.mul⟩

instance : Div float32 := ⟨float32.div⟩

/-- The order of `float`s is the comparison `float32.lt`. -/
instance : LT float32 := ⟨fun a b => float32.lt a b = true⟩

instance (a b : float32) : Decidable (a < b) :=
  inferInstanceAs (Decidable (float32.lt a b = true))

/-- The `float` of `k` units has magnitude at most `FLT_MAX / 2`: `|k|` is
`q * 2^j` for some `q < 2^24` and some `j <= 252`. -/
def float32.half_range (k : Int) : Bool :=
  (List.range 253).any (fun j => k.natAbs % 2 ^ j == 0 && decide (k.natAbs / 2 ^ j < 2 ^ 24))

/-- A mesh of `float`s with two live vertices, both at the point (3,4,5). -/
def float_point_mesh : model float32 :=
  { vertex_count := 2
    vertex_capacity := 2
    vertexes :=
      [⟨float32.finite (3 * 2 ^ 149), float32.finite (4 * 2 ^ 149), float32.finite (5 * 2 ^ 149)⟩,
        ⟨float32.finite (3 * 2 ^ 149), float32.finite (4 * 2 ^ 149), float32.finite (5 * 2 ^ 149)⟩]
    faces_count := 0
    faces_capacity := 1
    idxs := [0, 0, 0] }

/-! Lemmas on the mesh store -/

theorem relativize_idx_path_invalid_iff (i n : Int) :
    relativize_idx_path i n = relativize_path.invalid ↔ (i = 0 ∨ i < -n) := by
  unfold relativize_idx_path
  split_ifs <;> simp <;> omega

theorem relativize_idx_positive (i n : Int) (hi : 0 < i) (hn : 0 ≤ n) :
    relativize_idx i n = (i - 1, []) := by
  have h1 : ¬ (i < -n ∨ i = 0) := by omega
  simp [relativize_idx, relativize_idx_path, h1, hi]

theorem relativize_idx_negative (i n : Int) (hi : i < 0) (hn : -n ≤ i) :
    relativize_idx i n = (n + i, []) := by
  have h1 : ¬ (i < -n ∨ i = 0) := by omega
  have h2 : ¬ (i > 0) := by omega
  simp [relativize_idx, relativize_idx_path, h1, h2, hi]

theorem relativize_idx_invalid (i n : Int) (h : i = 0 ∨ i < -n) :
    relativize_idx i n = (0, [Diag.invalid_vertex_index i]) := by
  have h1 : (i < -n ∨ i = 0) := by omega
  simp [relativize_idx, relativize_idx_path, h1]

/-- C3: for every vertex count `n ≥ 1`, `relativize_idx` maps an index `i` with
`1 ≤ i ≤ n` to `i - 1` and an index `i` with `-n ≤ i ≤ -1` to `n + i`; for
example `relativize_idx(-1, 5) = 4`. -/
theorem relativize_idx_in_range (n : Int) (hn : 1 ≤ n) :
    (∀ i : Int, 1 ≤ i → i ≤ n → (relativize_idx i n).1 = i - 1) ∧
    (∀ i : Int, -n ≤ i → i ≤ -1 → (relativize_idx i n).1 = n + i) ∧
    (relativize_idx (-1) 5).1 = 4 := by
  refine ⟨?_, ?_, ?_⟩
  · intro i h1 _
    rw [relativize_idx_positive i n (by omega) (by omega)]
  · intro i h1 h2
    rw [relativize_idx_negative i n (by omega) h1]
  · rw [relativize_idx_negative (-1) 5 (by omega) (by omega)]
    rfl

theorem relativize_idx_in_range_witness :
    (1 : Int) ≤ 5 ∧
    ((∀ i : Int, 1 ≤ i → i ≤ 5 → (relativize_idx i 5).1 = i - 1) ∧
    (∀ i : Int, -5 ≤ i → i ≤ -1 → (relativize_idx i 5).1 = 5 + i) ∧
    (relativize_idx (-1) 5).1 = 4) :=
  ⟨by decide, relativize_idx_in_range 5 (by decide)⟩

/-- C4: for every vertex count `n ≥ 0`, `relativize_idx(0, n) = 0` and
`relativize_idx(i, n) = 0` for every `i < -n`, and the warning branch is taken
(a warning is written) exactly for these inputs. -/
theorem relativize_idx_invalid_inputs (n : Int) (hn : 0 ≤ n) :
    (relativize_idx 0 n).1 = 0 ∧
    (∀ i : Int, i < -n → (relativize_idx i n).1 = 0) ∧
    (∀ i : Int, relativize_idx_path i n = relativize_path.invalid ↔ (i = 0 ∨ i < -n)) ∧
    (∀ i : Int, (i = 0 ∨ i < -n) →
      (relativize_idx i n).2 = [Diag.invalid_vertex_index i]) ∧
    (∀ i : Int, ¬ (i = 0 ∨ i < -n) → (relativize_idx i n).2 = []) := by
  refine ⟨?_, ?_, ?_, ?_, ?_⟩
  · rw [relativize_idx_invalid 0 n (Or.inl rfl)]
  · intro i hi
    rw [relativize_idx_invalid i n (Or.inr hi)]
  · intro i
    exact relativize_idx_path_invalid_iff i n
  · intro i hi
    rw [relativize_idx_invalid i n hi]
  · intro i hi
    rcases lt_or_gt_of_ne (show i ≠ 0 by omega) with h | h
    · rw [relativize_idx_negative i n h (by omega)]
    · rw [relativize_idx_positive i n h hn]

theorem relativize_idx_invalid_inputs_witness :
    (0 : Int) ≤ 3 ∧
    ((relativize_idx 0 3).1 = 0 ∧
    (∀ i : Int, i < -3 → (relativize_idx i 3).1 = 0) ∧
    (∀ i : Int, relativize_idx_path i 3 = relativize_path.invalid ↔ (i = 0 ∨ i < -3)) ∧
    (∀ i : Int, (i = 0 ∨ i < -3) →
      (relativize_idx i 3).2 = [Diag.invalid_vertex_index i]) ∧
    (∀ i : Int, ¬ (i = 0 ∨ i < -3) → (relativize_idx i 3).2 = [])) :=
  ⟨by decide, relativize_idx_invalid_inputs 3 (by decide)⟩

theorem validate_loop_spec {α : Type} (m : model α) (k : Nat) (hk : k ≤ m.idxs.length) :
    (for_loop validate_body k (true, m, [])).2.1.vertex_count = m.vertex_count ∧
    (for_loop validate_body k (true, m, [])).2.1.vertex_capacity = m.vertex_capacity ∧
    (for_loop validate_body k (true, m, [])).2.1.vertexes = m.vertexes ∧
    (for_loop validate_body k (true, m, [])).2.1.faces_count = m.faces_count ∧
    (for_loop validate_body k (true, m, [])).2.1.faces_capacity = m.faces_capacity ∧
    (for_loop validate_body k (true, m, [])).2.1.idxs =
      (m.idxs.take k).map (repair_index m.vertex_count) ++ m.idxs.drop k ∧
    ((for_loop validate_body k (true, m, [])).1 = true ↔
      ∀ x ∈ m.idxs.take k, x < (m.vertex_count : Int)) := by
  induction k with
  | zero => simp [for_loop]
  | succ k ih =>
    have hk1 : k < m.idxs.length := by omega
    obtain ⟨h1, h2, h3, h4, h5, h6, h7⟩ := ih (by omega)
    have hget : (for_loop validate_body k (true, m, [])).2.1.idxs.getD k 0 = m.idxs[k] := by
      rw [h6, List.getD_append_right _ _ _ _ (by simp [List.length_take])]
      simp [List.length_take, Nat.min_eq_left (le_of_lt hk1), List.getD_eq_getElem?_getD, hk1]
    have htake : m.idxs.take (k + 1) = m.idxs.take k ++ [m.idxs[k]] := by
      rw [List.take_succ, List.getElem?_eq_getElem hk1]
      rfl
    have hdrop : m.idxs.drop k = m.idxs[k] :: m.idxs.drop (k + 1) :=
      List.drop_eq_getElem_cons hk1
    have hlen : ((m.idxs.take k).map (repair_index m.vertex_count)).length = k := by
      simp [List.length_take]; omega
    have hmin : min k m.idxs.length = k := Nat.min_eq_left (le_of_lt hk1)
    have hstep : for_loop validate_body (k + 1) (true, m, []) =
        validate_body k (for_loop validate_body k (true, m, [])) := rfl
    rw [hstep]
    generalize for_loop validate_body k (true, m, []) = s at h1 h2 h3 h4 h5 h6 h7 hget
    unfold validate_body
    rw [hget, h1]
    by_cases hc : m.idxs[k] ≥ (m.vertex_count : Int)
    · rw [if_pos hc]
      refine ⟨h1, h2, h3, h4, h5, ?_, ?_⟩
      · show s.2.1.idxs.set k 0 = _
        rw [h6, htake, hdrop, List.map_append, List.append_assoc, List.set_append, hlen,
          if_neg (lt_irrefl k), Nat.sub_self, List.set_cons_zero]
        have hr : repair_index m.vertex_count m.idxs[k] = 0 := by simp [repair_index, hc]
        simp only [List.map_cons, List.map_nil, hr, List.singleton_append]
      · simp only [htake, List.mem_append, List.mem_singleton]
        constructor
        · intro h; cases h
        · intro h
          have := h m.idxs[k] (Or.inr rfl)
          omega
    · rw [if_neg hc]
      refine ⟨h1, h2, h3, h4, h5, ?_, ?_⟩
      · rw [h6, htake, hdrop, List.map_append, List.append_assoc]
        have hr : repair_index m.vertex_count m.idxs[k] = m.idxs[k] := by
          simp [repair_index, hc]
        simp only [List.map_cons, List.map_nil, hr, List.singleton_append]
      · rw [h7]
        simp only [htake, List.mem_append, List.mem_singleton]
        constructor
        · intro h x hx
          rcases hx with hx | hx
          · exact h x hx
          · subst hx; omega
        · intro h x hx
          exact h x (Or.inl hx)

/-- C5: on a mesh whose index store holds its `3 * faces_count` live indices,
`model_validate_idxs` returns true if and only if every live index is below
`vertex_count`; whatever it returns, each live index that was at least
`vertex_count` is 0 afterwards, every other index is unchanged, and the
vertices and both counts are unchanged. -/
theorem model_validate_idxs_spec {α : Type} (m : model α)
    (hstore : 3 * m.faces_count ≤ m.idxs.length) :
    ((model_validate_idxs m).1 = true ↔ ∀ x ∈ m.indices, x < (m.vertex_count : Int)) ∧
    (model_validate_idxs m).2.1.indices = m.indices.map (repair_index m.vertex_count) ∧
    (model_validate_idxs m).2.1.idxs.drop (3 * m.faces_count) =
      m.idxs.drop (3 * m.faces_count) ∧
    (model_validate_idxs m).2.1.vertexes = m.vertexes ∧
    (model_validate_idxs m).2.1.vertex_count = m.vertex_count ∧
    (model_validate_idxs m).2.1.faces_count = m.faces_count := by
  obtain ⟨h1, _, h3, h4, _, h6, h7⟩ := validate_loop_spec m (3 * m.faces_count) hstore
  have hlen : ((m.idxs.take (3 * m.faces_count)).map (repair_index m.vertex_count)).length
      = 3 * m.faces_count := by
    simp [List.length_take]; omega
  refine ⟨h7, ?_, ?_, h3, h1, h4⟩
  · unfold model.indices model_validate_idxs
    rw [h4, h6, List.take_append_eq_append_take, hlen]
    simp [List.take_of_length_le (le_of_eq hlen)]
  · unfold model_validate_idxs
    rw [h6, List.drop_append_eq_append_drop, hlen]
    simp [List.drop_of_length_le (le_of_eq hlen)]

theorem model_validate_idxs_spec_witness :
    3 * sample_mesh.faces_count ≤ sample_mesh.idxs.length ∧
    (((model_validate_idxs sample_mesh).1 = true ↔
      ∀ x ∈ sample_mesh.indices, x < (sample_mesh.vertex_count : Int)) ∧
    (model_validate_idxs sample_mesh).2.1.indices =
      sample_mesh.indices.map (repair_index sample_mesh.vertex_count) ∧
    (model_validate_idxs sample_mesh).2.1.idxs.drop (3 * sample_mesh.faces_count) =
      sample_mesh.idxs.drop (3 * sample_mesh.faces_count) ∧
    (model_validate_idxs sample_mesh).2.1.vertexes = sample_mesh.vertexes ∧
    (model_validate_idxs sample_mesh).2.1.vertex_count = sample_mesh.vertex_count ∧
    (model_validate_idxs sample_mesh).2.1.faces_count = sample_mesh.faces_count) :=
  ⟨by decide, model_validate_idxs_spec sample_mesh (by decide)⟩

/-! Lemmas on the bounding box -/

theorem foldl_min_le {α : Type} [LinearOrder α] (l : List α) (a : α) :
    l.foldl (fun acc b => min b acc) a ≤ a ∧
    (∀ b ∈ l, l.foldl (fun acc b => min b acc) a ≤ b) ∧
    (l.foldl (fun acc b => min b acc) a = a ∨ l.foldl (fun acc b => min b acc) a ∈ l) := by
  induction l generalizing a with
  | nil => simp
  | cons c l ih =>
    obtain ⟨h1, h2, h3⟩ := ih (min c a)
    simp only [List.foldl_cons, List.mem_cons]
    refine ⟨le_trans h1 (min_le_right _ _), ?_, ?_⟩
    · intro b hb
      rcases hb with hb | hb
      · subst hb; exact le_trans h1 (min_le_left _ _)
      · exact h2 b hb
    · rcases h3 with h3 | h3
      · rw [h3]
        rcases min_choice c a with h | h
        · right; left; exact h
        · left; exact h
      · right; right; exact h3

theorem foldl_max_ge {α : Type} [LinearOrder α] (l : List α) (a : α) :
    a ≤ l.foldl (fun acc b => max b acc) a ∧
    (∀ b ∈ l, b ≤ l.foldl (fun acc b => max b acc) a) ∧
    (l.foldl (fun acc b => max b acc) a = a ∨ l.foldl (fun acc b => max b acc) a ∈ l) := by
  induction l generalizing a with
  | nil => simp
  | cons c l ih =>
    obtain ⟨h1, h2, h3⟩ := ih (max c a)
    simp only [List.foldl_cons, List.mem_cons]
    refine ⟨le_trans (le_max_right _ _) h1, ?_, ?_⟩
    · intro b hb
      rcases hb with hb | hb
      · subst hb; exact le_trans (le_max_left _ _) h1
      · exact h2 b hb
    · rcases h3 with h3 | h3
      · rw [h3]
        rcases max_choice c a with h | h
        · right; left; exact h
        · left; exact h
      · right; right; exact h3

theorem bounding_box_body_eq {α : Type} [Zero α] [LinearOrder α] (m : model α) (i : Nat)
    (s : vec3 α × vec3 α) :
    bounding_box_body m i s =
      (⟨min (m.vertexes.getD i vec3.zero).x s.1.x, min (m.vertexes.getD i vec3.zero).y s.1.y,
        min (m.vertexes.getD i vec3.zero).z s.1.z⟩,
       ⟨max (m.vertexes.getD i vec3.zero).x s.2.x, max (m.vertexes.getD i vec3.zero).y s.2.y,
        max (m.vertexes.getD i vec3.zero).z s.2.z⟩) := by
  obtain ⟨⟨a, b, c⟩, ⟨d, e, f⟩⟩ := s
  unfold bounding_box_body
  generalize m.vertexes.getD i vec3.zero = v
  obtain ⟨p, q, r⟩ := v
  simp only [gt_iff_lt]
  refine Prod.ext ?_ ?_
  · rcases lt_or_le p a with h1 | h1 <;> rcases lt_or_le q b with h2 | h2 <;>
      rcases lt_or_le r c with h3 | h3 <;>
      simp [h1, h2, h3, min_eq_left, min_eq_right, le_of_lt, not_lt.mpr]
  · rcases lt_or_le d p with h1 | h1 <;> rcases lt_or_le e q with h2 | h2 <;>
      rcases lt_or_le f r with h3 | h3 <;>
      simp [h1, h2, h3, max_eq_left, max_eq_right, le_of_lt, not_lt.mpr]

theorem bounding_box_loop_eq {α : Type} [Zero α] [LinearOrder α] (m : model α) (k : Nat)
    (hk : k ≤ m.vertexes.length) (s : vec3 α × vec3 α) :
    for_loop (bounding_box_body m) k s =
      (⟨((m.vertexes.take k).map vec3.x).foldl (fun acc b => min b acc) s.1.x,
        ((m.vertexes.take k).map vec3.y).foldl (fun acc b => min b acc) s.1.y,
        ((m.vertexes.take k).map vec3.z).foldl (fun acc b => min b acc) s.1.z⟩,
       ⟨((m.vertexes.take k).map vec3.x).foldl (fun acc b => max b acc) s.2.x,
        ((m.vertexes.take k).map vec3.y).foldl (fun acc b => max b acc) s.2.y,
        ((m.vertexes.take k).map vec3.z).foldl (fun acc b => max b acc) s.2.z⟩) := by
  induction k with
  | zero => simp [for_loop]
  | succ k ih =>
    have hk1 : k < m.vertexes.length := by omega
    have htake : m.vertexes.take (k + 1) = m.vertexes.take k ++ [m.vertexes[k]] := by
      rw [List.take_succ, List.getElem?_eq_getElem hk1]
      rfl
    have hget : m.vertexes.getD k vec3.zero = m.vertexes[k] :=
      List.getD_eq_getElem _ _ hk1
    show bounding_box_body m k (for_loop (bounding_box_body m) k s) = _
    rw [bounding_box_body_eq, ih (by omega), hget, htake]
    simp only [List.map_append, List.foldl_append, List.map_cons, List.map_nil,
      List.foldl_cons, List.foldl_nil]

theorem model_bounding_box_eq_list {α : Type} [Zero α] [LinearOrder α] (m : model α)
    (hstore : m.vertex_count ≤ m.vertexes.length) :
    model_bounding_box m = list_bounding_box m.vertices := by
  unfold model_bounding_box
  rw [bounding_box_loop_eq m m.vertex_count hstore]
  unfold model.vertices
  by_cases h0 : m.vertex_count > 0
  · have hlen : 0 < m.vertexes.length := by omega
    obtain ⟨v, vs, hv⟩ : ∃ v vs, m.vertexes = v :: vs := by
      cases hm : m.vertexes with
      | nil => rw [hm] at hlen; simp at hlen
      | cons v vs => exact ⟨v, vs, rfl⟩
    obtain ⟨n, hn⟩ : ∃ n, m.vertex_count = n + 1 := ⟨m.vertex_count - 1, by omega⟩
    have hpos : n + 1 > 0 := Nat.succ_pos n
    simp only [hv, hn, List.take_succ_cons, List.getD_cons_zero, if_pos hpos]
    rfl
  · have h00 : m.vertex_count = 0 := by omega
    simp [h00, list_bounding_box]

theorem foldl_min_is_least {α : Type} [LinearOrder α] (l : List α) (a : α) (ha : a ∈ l) :
    is_least_of (l.foldl (fun acc b => min b acc) a) l := by
  obtain ⟨_, h2, h3⟩ := foldl_min_le l a
  refine ⟨h2, ?_⟩
  rcases h3 with h3 | h3
  · rw [h3]; exact ha
  · exact h3

theorem foldl_max_is_greatest {α : Type} [LinearOrder α] (l : List α) (a : α) (ha : a ∈ l) :
    is_greatest_of (l.foldl (fun acc b => max b acc) a) l := by
  obtain ⟨_, h2, h3⟩ := foldl_max_ge l a
  refine ⟨h2, ?_⟩
  rcases h3 with h3 | h3
  · rw [h3]; exact ha
  · exact h3

theorem list_bounding_box_spec {α : Type} [Zero α] [LinearOrder α] (vs : List (vec3 α))
    (hne : vs ≠ []) :
    is_least_of (list_bounding_box vs).1.x (vs.map vec3.x) ∧
    is_least_of (list_bounding_box vs).1.y (vs.map vec3.y) ∧
    is_least_of (list_bounding_box vs).1.z (vs.map vec3.z) ∧
    is_greatest_of (list_bounding_box vs).2.x (vs.map vec3.x) ∧
    is_greatest_of (list_bounding_box vs).2.y (vs.map vec3.y) ∧
    is_greatest_of (list_bounding_box vs).2.z (vs.map vec3.z) := by
  cases vs with
  | nil => exact absurd rfl hne
  | cons v vs =>
    simp only [list_bounding_box]
    exact ⟨foldl_min_is_least _ _ (by simp), foldl_min_is_least _ _ (by simp),
      foldl_min_is_least _ _ (by simp), foldl_max_is_greatest _ _ (by simp),
      foldl_max_is_greatest _ _ (by simp), foldl_max_is_greatest _ _ (by simp)⟩

theorem vertices_length {α : Type} (m : model α) (hstore : m.vertex_count ≤ m.vertexes.length) :
    m.vertices.length = m.vertex_count := by
  simp [model.vertices, List.length_take, hstore]

/-- C8: on a mesh whose store holds its live vertices, with coordinates in a
totally ordered type: if there is at least one vertex then on each axis the
minimum returned by `model_bounding_box` is below that coordinate of every
vertex and equals that coordinate of some vertex, and the maximum is above
every vertex and attained by some vertex; with zero vertices both results are
(0,0,0); the vertices (-1,0,0), (1,2,0), (0,0,-3) give min (-1,0,-3) and
max (1,2,0). -/
theorem model_bounding_box_spec {α : Type} [Zero α] [LinearOrder α] (m : model α)
    (hstore : m.vertex_count ≤ m.vertexes.length) :
    (1 ≤ m.vertex_count →
      is_least_of (model_bounding_box m).1.x (m.vertices.map vec3.x) ∧
      is_least_of (model_bounding_box m).1.y (m.vertices.map vec3.y) ∧
      is_least_of (model_bounding_box m).1.z (m.vertices.map vec3.z) ∧
      is_greatest_of (model_bounding_box m).2.x (m.vertices.map vec3.x) ∧
      is_greatest_of (model_bounding_box m).2.y (m.vertices.map vec3.y) ∧
      is_greatest_of (model_bounding_box m).2.z (m.vertices.map vec3.z)) ∧
    (m.vertex_count = 0 → model_bounding_box m = (⟨0, 0, 0⟩, ⟨0, 0, 0⟩)) ∧
    (sample_box_mesh.vertices = [⟨-1, 0, 0⟩, ⟨1, 2, 0⟩, ⟨0, 0, -3⟩] ∧
      model_bounding_box sample_box_mesh = (⟨-1, 0, -3⟩, ⟨1, 2, 0⟩)) := by
  refine ⟨?_, ?_, ?_, ?_⟩
  · intro h1
    rw [model_bounding_box_eq_list m hstore]
    apply list_bounding_box_spec
    intro hnil
    have := vertices_length m hstore
    rw [hnil] at this
    simp at this
    omega
  · intro h0
    rw [model_bounding_box_eq_list m hstore]
    simp [model.vertices, h0, list_bounding_box, vec3.zero]
  · decide
  · decide

theorem model_bounding_box_spec_witness :
    sample_box_mesh.vertex_count ≤ sample_box_mesh.vertexes.length ∧
    ((1 ≤ sample_box_mesh.vertex_count →
      is_least_of (model_bounding_box sample_box_mesh).1.x (sample_box_mesh.vertices.map vec3.x) ∧
      is_least_of (model_bounding_box sample_box_mesh).1.y (sample_box_mesh.vertices.map vec3.y) ∧
      is_least_of (model_bounding_box sample_box_mesh).1.z (sample_box_mesh.vertices.map vec3.z) ∧
      is_greatest_of (model_bounding_box sample_box_mesh).2.x
        (sample_box_mesh.vertices.map vec3.x) ∧
      is_greatest_of (model_bounding_box sample_box_mesh).2.y
        (sample_box_mesh.vertices.map vec3.y) ∧
      is_greatest_of (model_bounding_box sample_box_mesh).2.z
        (sample_box_mesh.vertices.map vec3.z)) ∧
    (sample_box_mesh.vertex_count = 0 →
      model_bounding_box sample_box_mesh = (⟨0, 0, 0⟩, ⟨0, 0, 0⟩)) ∧
    (sample_box_mesh.vertices = [⟨-1, 0, 0⟩, ⟨1, 2, 0⟩, ⟨0, 0, -3⟩] ∧
      model_bounding_box sample_box_mesh = (⟨-1, 0, -3⟩, ⟨1, 2, 0⟩))) :=
  ⟨by decide, model_bounding_box_spec sample_box_mesh (by decide)⟩

/-! Lemmas on normalization -/

theorem normalize_loop_spec {α : Type} [Zero α] [Sub α] [Mul α] (center : vec3 α) (scale : α)
    (m : model α) (k : Nat) (hk : k ≤ m.vertexes.length) :
    for_loop (normalize_body center scale) k m =
      { m with vertexes :=
          (m.vertexes.take k).map (normalize_vertex center scale) ++ m.vertexes.drop k } := by
  induction k with
  | zero => simp [for_loop]
  | succ k ih =>
    have hk1 : k < m.vertexes.length := by omega
    have htake : m.vertexes.take (k + 1) = m.vertexes.take k ++ [m.vertexes[k]] := by
      rw [List.take_succ, List.getElem?_eq_getElem hk1]
      rfl
    have hdrop : m.vertexes.drop k = m.vertexes[k] :: m.vertexes.drop (k + 1) :=
      List.drop_eq_getElem_cons hk1
    have hlen : ((m.vertexes.take k).map (normalize_vertex center scale)).length = k := by
      simp [List.length_take]
      omega
    show normalize_body center scale k (for_loop (normalize_body center scale) k m) = _
    rw [ih (by omega)]
    unfold normalize_body
    have hget : ((m.vertexes.take k).map (normalize_vertex center scale) ++
        m.vertexes.drop k).getD k vec3.zero = m.vertexes[k] := by
      rw [List.getD_append_right _ _ _ _ (le_of_eq hlen), hlen, Nat.sub_self, hdrop]
      rfl
    simp only [hget]
    rw [htake, hdrop, List.map_append, List.append_assoc, List.set_append, hlen,
      if_neg (lt_irrefl k), Nat.sub_self, List.set_cons_zero]
    rfl

theorem normalize_scale_ne_none {α : Type} [Field α] [DecidableEq α] (d : α) :
    normalize_scale d ≠ none := by
  unfold normalize_scale checked_div
  split_ifs <;> simp

theorem model_normalize_eq {α : Type} [Zero α] [One α] [OfNat α 2] [Add α] [Sub α] [Mul α]
    [Div α] [LT α] [DecidableRel (fun a b : α => a < b)] [DecidableEq α]
    (sqrtf : α → α) (m : model α)
    (hstore : m.vertex_count ≤ m.vertexes.length) (scale : α)
    (hs : normalize_scale (normalize_diameter sqrtf (model_bounding_box m).1
      (model_bounding_box m).2) = some scale) :
    model_normalize sqrtf m = some { m with vertexes := (m.vertices.map (normalize_vertex
      (normalize_center (model_bounding_box m).1 (model_bounding_box m).2) scale)
      ++ m.vertexes.drop m.vertex_count) } := by
  unfold model_normalize
  simp only [hs]
  rw [normalize_loop_spec _ _ m m.vertex_count hstore]
  rfl

theorem normalized_vertices {α : Type} (m : model α) (f : vec3 α → vec3 α)
    (hstore : m.vertex_count ≤ m.vertexes.length) :
    model.vertices { m with vertexes := (m.vertices.map f ++ m.vertexes.drop m.vertex_count) } =
      m.vertices.map f := by
  have hlen : (m.vertices.map f).length = m.vertex_count := by
    rw [List.length_map, vertices_length m hstore]
  show List.take m.vertex_count (m.vertices.map f ++ m.vertexes.drop m.vertex_count) = _
  rw [List.take_append_eq_append_take, hlen, Nat.sub_self, List.take_zero, List.append_nil,
    List.take_of_length_le (le_of_eq hlen)]

theorem float32_round_exact (s : Bool) (q j c : Nat) (hq : q < 2 ^ 24) (hj : j ≤ 253)
    (hc : 0 < c) :
    float32.round s (q * 2 ^ j * c) c =
      float32.finite (if s then -((q * 2 ^ j : Nat) : Int) else ((q * 2 ^ j : Nat) : Int)) := by
  have hpj : q * 2 ^ j * c < c * (2 ^ 24 * 2 ^ j) := by
    have h1 : q * 2 ^ j < 2 ^ 24 * 2 ^ j :=
      Nat.mul_lt_mul_of_pos_right hq (Nat.pow_pos (by decide))
    calc q * 2 ^ j * c < 2 ^ 24 * 2 ^ j * c := Nat.mul_lt_mul_of_pos_right h1 hc
      _ = c * (2 ^ 24 * 2 ^ j) := Nat.mul_comm _ _
  unfold float32.round
  cases hfind : (List.range 254).find?
      (fun i => decide (q * 2 ^ j * c < c * (2 ^ 24 * 2 ^ i))) with
  | none =>
    rw [List.find?_range_eq_none] at hfind
    have := hfind j (by omega)
    rw [decide_eq_true hpj] at this
    exact absurd this (by decide)
  | some j0 =>
    rw [List.find?_range_eq_some] at hfind
    obtain ⟨_, _, hmin⟩ := hfind
    have hj0 : j0 ≤ j := by
      by_contra hlt
      have := hmin j (by omega)
      rw [decide_eq_true hpj] at this
      exact absurd this (by decide)
    obtain ⟨e, rfl⟩ : ∃ e, j = j0 + e := ⟨j - j0, by omega⟩
    have hn : q * 2 ^ (j0 + e) * c = q * 2 ^ e * (c * 2 ^ j0) := by
      rw [pow_add]
      ac_rfl
    have hd : 0 < c * 2 ^ j0 := Nat.mul_pos hc (Nat.pow_pos (by decide))
    have hval : q * 2 ^ e * 2 ^ j0 = q * 2 ^ (j0 + e) := by
      rw [pow_add]
      ac_rfl
    have hlt : q * 2 ^ (j0 + e) < 2 ^ 24 * 2 ^ 253 := by
      calc q * 2 ^ (j0 + e) < 2 ^ 24 * 2 ^ (j0 + e) :=
            Nat.mul_lt_mul_of_pos_right hq (Nat.pow_pos (by decide))
        _ ≤ 2 ^ 24 * 2 ^ 253 :=
            Nat.mul_le_mul_left _ (Nat.pow_le_pow_right (by decide) hj)
    simp only [hn, Nat.mul_div_cancel _ hd, Nat.mul_mod_left, Nat.mul_zero, hd, if_true, hval,
      if_neg (not_le.mpr hlt)]

theorem live_vertex_eq {α : Type} [Zero α] (m : model α)
    (hstore : m.vertex_count ≤ m.vertexes.length) (v : vec3 α)
    (hall : ∀ u ∈ m.vertices, u = v) (i : Nat) (hi : i < m.vertex_count) :
    m.vertexes.getD i vec3.zero = v := by
  have hlen : i < m.vertexes.length := by omega
  rw [List.getD_eq_getElem _ _ hlen]
  apply hall
  unfold model.vertices
  rw [List.mem_iff_getElem]
  refine ⟨i, by rw [List.length_take]; omega, ?_⟩
  rw [List.getElem_take]

theorem bounding_box_loop_const {α : Type} [Zero α] [LT α]
    [DecidableRel (fun a b : α => a < b)] (m : model α) (v : vec3 α)
    (hx : ¬ v.x < v.x) (hy : ¬ v.y < v.y) (hz : ¬ v.z < v.z) (k : Nat)
    (hk : ∀ i, i < k → m.vertexes.getD i vec3.zero = v) :
    for_loop (bounding_box_body m) k (v, v) = (v, v) := by
  induction k with
  | zero => rfl
  | succ k ih =>
    show bounding_box_body m k (for_loop (bounding_box_body m) k (v, v)) = _
    rw [ih (fun i hi => hk i (by omega))]
    unfold bounding_box_body
    simp only [hk k (by omega), gt_iff_lt, if_neg hx, if_neg hy, if_neg hz]

theorem model_bounding_box_const {α : Type} [Zero α] [LT α]
    [DecidableRel (fun a b : α => a < b)] (m : model α)
    (hstore : m.vertex_count ≤ m.vertexes.length) (hne : 1 ≤ m.vertex_count) (v : vec3 α)
    (hall : ∀ u ∈ m.vertices, u = v)
    (hx : ¬ v.x < v.x) (hy : ¬ v.y < v.y) (hz : ¬ v.z < v.z) :
    model_bounding_box m = (v, v) := by
  unfold model_bounding_box
  have h0 : m.vertex_count > 0 := by omega
  simp only [if_pos h0, live_vertex_eq m hstore v hall 0 h0]
  exact bounding_box_loop_const m v hx hy hz _ (fun i hi => live_vertex_eq m hstore v hall i hi)

theorem float32_half_range_spec (k : Int) (h : float32.half_range k = true) :
    ∃ q j, q < 2 ^ 24 ∧ j ≤ 252 ∧ k.natAbs = q * 2 ^ j := by
  unfold float32.half_range at h
  rw [List.any_eq_true] at h
  obtain ⟨j, hj, hp⟩ := h
  rw [List.mem_range] at hj
  simp only [Bool.and_eq_true, beq_iff_eq, decide_eq_true_eq] at hp
  refine ⟨k.natAbs / 2 ^ j, j, hp.2, by omega, ?_⟩
  exact (Nat.div_mul_cancel (Nat.dvd_of_mod_eq_zero hp.1)).symm

theorem float32_lt_irrefl (k : Int) : ¬ (float32.finite k < float32.finite k) := by
  show ¬ (float32.lt (float32.finite k) (float32.finite k) = true)
  simp [float32.lt]

theorem float32_sub_self (k : Int) : float32.finite k - float32.finite k = 0 := by
  show float32.sub (float32.finite k) (float32.finite k) = float32.finite 0
  unfold float32.sub float32.neg float32.add
  simp only [Int.add_right_neg]
  decide

theorem float32_add_self (k : Int) (q j : Nat) (hq : q < 2 ^ 24) (hj : j ≤ 252)
    (hk : k.natAbs = q * 2 ^ j) :
    float32.finite k + float32.finite k = float32.finite (2 * k) := by
  show float32.round (decide (k + k < 0)) (k + k).natAbs 1 = float32.finite (2 * k)
  have hn : (k + k).natAbs = q * 2 ^ (j + 1) * 1 := by
    have h2 : (k + k).natAbs = 2 * k.natAbs := by omega
    rw [h2, hk, pow_succ]
    ac_rfl
  rw [hn, float32_round_exact _ q (j + 1) 1 hq (by omega) (by decide)]
  congr 1
  have : (q * 2 ^ (j + 1) : Nat) = 2 * k.natAbs := by
    rw [hk, pow_succ]
    ac_rfl
  rw [this]
  by_cases hneg : k + k < 0
  · simp only [hneg, decide_True, if_true]
    omega
  · simp only [hneg, decide_False, Bool.false_eq_true, if_false]
    omega

theorem float32_div_finite (a b : Int) (hb : b ≠ 0) :
    float32.div (float32.finite a) (float32.finite b) =
      float32.round (decide (a * b < 0)) (a.natAbs * 2 ^ 149) b.natAbs := by
  simp only [float32.div, if_neg hb]

theorem float32_double_half (k : Int) (q j : Nat) (hq : q < 2 ^ 24) (hj : j ≤ 252)
    (hk : k.natAbs = q * 2 ^ j) :
    float32.finite (2 * k) / 2 = float32.finite k := by
  show float32.div (float32.finite (2 * k)) (float32.finite (2 ^ 150)) = float32.finite k
  have h150 : ((2 : Int) ^ 150) ≠ 0 := by positivity
  have hn : (2 * k).natAbs * 2 ^ 149 = q * 2 ^ j * ((2 : Int) ^ 150).natAbs := by
    have h1 : ((2 : Int) ^ 150).natAbs = 2 ^ 150 := by
      rw [Int.natAbs_pow]
      rfl
    rw [h1, Int.natAbs_mul, hk, pow_succ 2 149]
    show 2 * (q * 2 ^ j) * 2 ^ 149 = q * 2 ^ j * (2 ^ 149 * 2)
    ac_rfl
  rw [float32_div_finite _ _ h150, hn, float32_round_exact _ q j _ hq (by omega)
    (Int.natAbs_pos.mpr h150)]
  congr 1
  rw [← hk]
  have hpos : (0 : Int) < 2 ^ 150 := by positivity
  by_cases hneg : k < 0
  · have : 2 * k * 2 ^ 150 < 0 := by
      apply mul_neg_of_neg_of_pos _ hpos
      omega
    simp only [this, decide_True, if_true]
    omega
  · have : ¬ (2 * k * 2 ^ 150 < 0) := by
      apply not_lt.mpr
      apply mul_nonneg _ (le_of_lt hpos)
      omega
    simp only [this, decide_False, Bool.false_eq_true, if_false]
    omega

set_option maxRecDepth 100000 in
theorem float32_center (k : Int) (h : float32.half_range k = true) :
    (float32.finite k - (float32.finite k + float32.finite k) / 2) * 1 = (0 : float32) := by
  obtain ⟨q, j, hq, hj, hk⟩ := float32_half_range_spec k h
  rw [float32_add_self k q j hq hj hk, float32_double_half k q j hq hj hk, float32_sub_self]
  decide

set_option maxRecDepth 100000 in
/-- In the arithmetic of the C type `float`: for every mesh with at least one
vertex whose live vertices are all the same point, with finite coordinates of
magnitude at most `FLT_MAX / 2`, the diagonal computed by `model_normalize` is
0, the scale factor is 1, the function divides by no zero, and afterwards every
live vertex is (0,0,0). -/
theorem model_normalize_float_point (m : model float32)
    (hstore : m.vertex_count ≤ m.vertexes.length) (hne : 1 ≤ m.vertex_count)
    (a b c : Int) (ha : float32.half_range a = true) (hb : float32.half_range b = true)
    (hc : float32.half_range c = true)
    (hall : ∀ u ∈ m.vertices, u = ⟨float32.finite a, float32.finite b, float32.finite c⟩) :
    normalize_diameter float32.sqrtf (model_bounding_box m).1 (model_bounding_box m).2 = 0 ∧
    normalize_scale (normalize_diameter float32.sqrtf (model_bounding_box m).1
      (model_bounding_box m).2) = some 1 ∧
    ∃ m1 : model float32, model_normalize float32.sqrtf m = some m1 ∧
      (∀ u ∈ m1.vertices, u = ⟨0, 0, 0⟩) ∧ m1.vertex_count = m.vertex_count := by
  have hbb := model_bounding_box_const m hstore hne _ hall (float32_lt_irrefl a)
    (float32_lt_irrefl b) (float32_lt_irrefl c)
  have hdiam : normalize_diameter float32.sqrtf (model_bounding_box m).1
      (model_bounding_box m).2 = 0 := by
    rw [hbb]
    simp only [normalize_diameter, float32_sub_self]
    decide
  have hscale : normalize_scale (normalize_diameter float32.sqrtf (model_bounding_box m).1
      (model_bounding_box m).2) = some 1 := by
    rw [hdiam]
    decide
  refine ⟨hdiam, hscale, _, model_normalize_eq float32.sqrtf m hstore 1 hscale, ?_, rfl⟩
  intro u hu
  rw [normalized_vertices m _ hstore] at hu
  obtain ⟨w, hw, rfl⟩ := List.mem_map.mp hu
  rw [hall w hw, hbb]
  simp only [normalize_vertex, normalize_center, float32_center a ha, float32_center b hb,
    float32_center c hc]

set_option maxRecDepth 100000 in
theorem model_normalize_float_point_example :
    normalize_diameter float32.sqrtf (model_bounding_box float_point_mesh).1
      (model_bounding_box float_point_mesh).2 = 0 ∧
    normalize_scale (normalize_diameter float32.sqrtf (model_bounding_box float_point_mesh).1
      (model_bounding_box float_point_mesh).2) = some 1 ∧
    ∃ m1 : model float32, model_normalize float32.sqrtf float_point_mesh = some m1 ∧
      (∀ u ∈ m1.vertices, u = ⟨0, 0, 0⟩) ∧ m1.vertex_count = float_point_mesh.vertex_count :=
  model_normalize_float_point float_point_mesh (by decide) (by decide) (3 * 2 ^ 149)
    (4 * 2 ^ 149) (5 * 2 ^ 149) (by decide) (by decide) (by decide) (by decide)

/-! Lemmas on the tokenizer -/

theorem str_chop_scan_single (d : Char) (seen rest : CStr) :
    str_chop_scan [d] seen 0 rest =
      (seen ++ (split_first d rest).1, (split_first d rest).2) := by
  induction rest generalizing seen with
  | nil => simp [str_chop_scan, split_first]
  | cons c cs ih =>
    unfold str_chop_scan
    by_cases hc : c = d
    · subst hc
      simp [split_first]
    · have hdc : ¬ d = c := fun h => hc h.symm
      simp [split_first, hc, hdc, ih]

theorem str_chop_single (d : Char) (h : [d] ≠ []) (s : CStr) :
    str_chop (some s) [d] h = (some (split_first d s).1, (split_first d s).2) := by
  simp [str_chop, str_chop_scan_single]

theorem split_first_length (d : Char) (s r : CStr) (h : (split_first d s).2 = some r) :
    r.length < s.length := by
  induction s with
  | nil => simp [split_first] at h
  | cons c cs ih =>
    unfold split_first at h
    by_cases hc : c = d
    · simp [hc] at h
      subst h
      simp
    · simp [hc] at h
      have := ih h
      simp
      omega

theorem splitOnP_split_first (d : Char) (s : CStr) :
    s.splitOnP (fun c => c == d) =
      (split_first d s).1 :: (match (split_first d s).2 with
        | none => []
        | some r => r.splitOnP (fun c => c == d)) := by
  induction s with
  | nil => simp [split_first]
  | cons c cs ih =>
    rw [List.splitOnP_cons]
    by_cases hc : c = d
    · subst hc
      simp [split_first]
    · simp only [beq_iff_eq, hc, if_false, split_first]
      rw [ih]
      rfl

theorem pieces_split_first (d : Char) (s : CStr) :
    pieces d s = (if (split_first d s).1 = [] then [] else [(split_first d s).1]) ++
      cursor_pieces d (split_first d s).2 := by
  unfold pieces
  rw [splitOnP_split_first]
  cases h : (split_first d s).2 with
  | none =>
    by_cases h1 : (split_first d s).1 = [] <;> simp [List.filter, h1, cursor_pieces]
  | some r =>
    by_cases h1 : (split_first d s).1 = [] <;> simp [List.filter, h1, cursor_pieces, pieces]

theorem skip_empty_loop_none (delim : CStr) (h : delim ≠ []) (fuel : Nat) :
    str_chop_skip_empty_loop delim h (fuel + 1) none = (none, none) := by
  simp [str_chop_skip_empty_loop, str_chop]

theorem skip_empty_loop_spec (d : Char) (h : [d] ≠ []) (fuel : Nat) (cur : Option CStr)
    (hf : cursor_length cur + 2 ≤ fuel) :
    (str_chop_skip_empty_loop [d] h fuel cur).1 = (cursor_pieces d cur).head? ∧
    cursor_pieces d (str_chop_skip_empty_loop [d] h fuel cur).2 = (cursor_pieces d cur).tail ∧
    ((str_chop_skip_empty_loop [d] h fuel cur).1 = none →
      (str_chop_skip_empty_loop [d] h fuel cur).2 = none) ∧
    ((str_chop_skip_empty_loop [d] h fuel cur).1 ≠ none →
      cursor_length (str_chop_skip_empty_loop [d] h fuel cur).2 < cursor_length cur) := by
  induction fuel generalizing cur with
  | zero => omega
  | succ fuel ih =>
    cases cur with
    | none => simp [skip_empty_loop_none, cursor_pieces]
    | some s =>
      have hstep : str_chop_skip_empty_loop [d] h (fuel + 1) (some s) =
          if (split_first d s).1 ≠ [] then (some (split_first d s).1, (split_first d s).2)
          else str_chop_skip_empty_loop [d] h fuel (split_first d s).2 := by
        simp only [str_chop_skip_empty_loop, str_chop_single]
      rw [hstep]
      have hp := pieces_split_first d s
      simp only [cursor_pieces, cursor_length] at hf ⊢
      by_cases h1 : (split_first d s).1 = []
      · rw [if_neg (not_not.mpr h1)]
        rw [if_pos h1, List.nil_append] at hp
        rw [hp]
        cases h2 : (split_first d s).2 with
        | none =>
          obtain ⟨k, hk⟩ : ∃ k, fuel = k + 1 := ⟨fuel - 1, by omega⟩
          rw [hk, skip_empty_loop_none]
          simp [cursor_pieces]
        | some r =>
          have hlen := split_first_length d s r h2
          obtain ⟨i1, i2, i3, i4⟩ := ih (some r) (by simp only [cursor_length]; omega)
          refine ⟨i1, i2, i3, ?_⟩
          intro hne
          have := i4 hne
          simp only [cursor_length] at this
          omega
      · rw [if_pos h1]
        rw [if_neg h1] at hp
        rw [hp]
        refine ⟨rfl, rfl, ?_, ?_⟩
        · intro hcontra
          cases hcontra
        · intro _
          cases h2 : (split_first d s).2 with
          | none =>
            simp only [cursor_length]
            cases s with
            | nil => simp [split_first] at h1
            | cons c cs => simp
          | some r => exact split_first_length d s r h2

theorem str_chop_skip_empty_spec (d : Char) (h : [d] ≠ []) (cur : Option CStr) :
    (str_chop_skip_empty cur [d] h).1 = (cursor_pieces d cur).head? ∧
    cursor_pieces d (str_chop_skip_empty cur [d] h).2 = (cursor_pieces d cur).tail ∧
    ((str_chop_skip_empty cur [d] h).1 = none → (str_chop_skip_empty cur [d] h).2 = none) ∧
    ((str_chop_skip_empty cur [d] h).1 ≠ none →
      cursor_length (str_chop_skip_empty cur [d] h).2 < cursor_length cur) :=
  skip_empty_loop_spec d h _ cur (le_refl _)

theorem parse_int_spec (atoi : CStr → Int) (cur : Option CStr) :
    (parse_int atoi cur).1 =
      ((cursor_pieces ' ' cur).head?).map (fun t => atoi (before_slash t)) ∧
    cursor_pieces ' ' (parse_int atoi cur).2 = (cursor_pieces ' ' cur).tail ∧
    ((parse_int atoi cur).1 ≠ none →
      cursor_length (parse_int atoi cur).2 < cursor_length cur) := by
  obtain ⟨h1, h2, _, h4⟩ := str_chop_skip_empty_spec ' ' (by decide) cur
  unfold parse_int
  simp only [delim_space, delim_slash]
  generalize str_chop_skip_empty cur [' '] (by decide) = r at h1 h2 h4
  obtain ⟨tok, cur1⟩ := r
  simp only at h1 h2 h4
  cases tok with
  | none =>
    simp only [← h1, Option.map_none', h2, true_and]
    intro hc
    exact absurd rfl hc
  | some arg =>
    simp only [str_chop_single, before_slash, ← h1, Option.map_some', h2, true_and]
    intro _
    exact h4 (by simp)

theorem parse_float_spec {α : Type} (atof : CStr → α) (cur : Option CStr) :
    (parse_float atof cur).1 =
      ((cursor_pieces ' ' cur).head?).map (fun t => atof (before_slash t)) ∧
    cursor_pieces ' ' (parse_float atof cur).2 = (cursor_pieces ' ' cur).tail ∧
    ((parse_float atof cur).1 ≠ none →
      cursor_length (parse_float atof cur).2 < cursor_length cur) := by
  obtain ⟨h1, h2, _, h4⟩ := str_chop_skip_empty_spec ' ' (by decide) cur
  unfold parse_float
  simp only [delim_space, delim_slash]
  generalize str_chop_skip_empty cur [' '] (by decide) = r at h1 h2 h4
  obtain ⟨tok, cur1⟩ := r
  simp only at h1 h2 h4
  cases tok with
  | none =>
    simp only [← h1, Option.map_none', h2, true_and]
    intro hc
    exact absurd rfl hc
  | some arg =>
    simp only [str_chop_single, before_slash, ← h1, Option.map_some', h2, true_and]
    intro _
    exact h4 (by simp)

theorem face_loop_spec {α : Type} (atoi : CStr → Int) (i1 : Int) (fuel : Nat) (i2 : Int)
    (cur : Option CStr) (m : model α) (hf : cursor_length cur + 1 ≤ fuel) :
    face_loop atoi i1 fuel i2 cur m =
      add_fan i1 i2 ((cursor_pieces ' ' cur).map (fun t => atoi (before_slash t))) m := by
  induction fuel generalizing i2 cur m with
  | zero => omega
  | succ fuel ih =>
    obtain ⟨h1, h2, h3⟩ := parse_int_spec atoi cur
    unfold face_loop
    generalize parse_int atoi cur = r at h1 h2 h3
    obtain ⟨v, cur1⟩ := r
    simp only at h1 h2 h3
    cases hp : cursor_pieces ' ' cur with
    | nil =>
      rw [hp] at h1
      simp only [List.head?_nil, Option.map_none'] at h1
      subst h1
      simp [add_fan]
    | cons t ts =>
      rw [hp] at h1 h2
      simp only [List.head?_cons, Option.map_some', List.tail_cons] at h1 h2
      subst h1
      have hlt := h3 (by simp)
      simp only [List.map_cons, add_fan]
      rw [ih _ cur1 _ (by omega), h2]

theorem parse_float_cons {α : Type} (atof : CStr → α) (cur : Option CStr) (t : CStr)
    (ts : List CStr) (h : cursor_pieces ' ' cur = t :: ts) :
    ∃ cur1, parse_float atof cur = (some (atof (before_slash t)), cur1) ∧
      cursor_pieces ' ' cur1 = ts := by
  obtain ⟨h1, h2, _⟩ := parse_float_spec atof cur
  rw [h] at h1 h2
  exact ⟨(parse_float atof cur).2, Prod.ext h1 rfl, h2⟩

theorem parse_float_nil {α : Type} (atof : CStr → α) (cur : Option CStr)
    (h : cursor_pieces ' ' cur = []) :
    ∃ cur1, parse_float atof cur = (none, cur1) := by
  obtain ⟨h1, _, _⟩ := parse_float_spec atof cur
  rw [h] at h1
  exact ⟨(parse_float atof cur).2, Prod.ext h1 rfl⟩

theorem parse_int_cons (atoi : CStr → Int) (cur : Option CStr) (t : CStr)
    (ts : List CStr) (h : cursor_pieces ' ' cur = t :: ts) :
    ∃ cur1, parse_int atoi cur = (some (atoi (before_slash t)), cur1) ∧
      cursor_pieces ' ' cur1 = ts := by
  obtain ⟨h1, h2, _⟩ := parse_int_spec atoi cur
  rw [h] at h1 h2
  exact ⟨(parse_int atoi cur).2, Prod.ext h1 rfl, h2⟩

theorem parse_int_nil (atoi : CStr → Int) (cur : Option CStr)
    (h : cursor_pieces ' ' cur = []) :
    ∃ cur1, parse_int atoi cur = (none, cur1) := by
  obtain ⟨h1, _, _⟩ := parse_int_spec atoi cur
  rw [h] at h1
  exact ⟨(parse_int atoi cur).2, Prod.ext h1 rfl⟩

theorem process_line_eq {α : Type} [Zero α] (atof : CStr → α) (atoi : CStr → Int)
    (m : model α) (line : CStr) :
    process_line atof atoi m line = line_effect atof atoi m (fields line) := by
  obtain ⟨h1, h2, _, _⟩ := str_chop_skip_empty_spec ' ' (by decide) (some line)
  unfold process_line
  simp only [delim_space]
  generalize str_chop_skip_empty (some line) [' '] (by decide) = r at h1 h2
  obtain ⟨tok, cur⟩ := r
  simp only [cursor_pieces] at h1 h2
  change tok = (fields line).head? at h1
  change cursor_pieces ' ' cur = (fields line).tail at h2
  cases hf : fields line with
  | nil =>
    rw [hf] at h1
    subst h1
    simp [line_effect]
  | cons instr args =>
    rw [hf] at h1 h2
    simp only [List.head?_cons, List.tail_cons] at h1 h2
    subst h1
    simp only [line_effect]
    by_cases hc : instr.head? = some '#'
    · simp [hc]
    · simp only [hc, if_false]
      by_cases hv : instr = ['v']
      · simp only [hv, if_true]
        cases args with
        | nil =>
          obtain ⟨c1, e1⟩ := parse_float_nil atof cur h2
          simp [e1]
        | cons a args =>
          obtain ⟨c1, e1, p1⟩ := parse_float_cons atof cur a args h2
          cases args with
          | nil =>
            obtain ⟨c2, e2⟩ := parse_float_nil atof c1 p1
            simp [e1, e2]
          | cons b args =>
            obtain ⟨c2, e2, p2⟩ := parse_float_cons atof c1 b args p1
            cases args with
            | nil =>
              obtain ⟨c3, e3⟩ := parse_float_nil atof c2 p2
              simp [e1, e2, e3]
            | cons c args =>
              obtain ⟨c3, e3, _⟩ := parse_float_cons atof c2 c args p2
              simp [e1, e2, e3]
      · simp only [hv, if_false]
        by_cases hface : instr = ['f']
        · simp only [hface, if_true]
          cases args with
          | nil =>
            obtain ⟨c1, e1⟩ := parse_int_nil atoi cur h2
            simp [e1]
          | cons a args =>
            obtain ⟨c1, e1, p1⟩ := parse_int_cons atoi cur a args h2
            cases args with
            | nil =>
              obtain ⟨c2, e2⟩ := parse_int_nil atoi c1 p1
              simp [e1, e2]
            | cons b args =>
              obtain ⟨c2, e2, p2⟩ := parse_int_cons atoi c1 b args p1
              simp only [e1, e2]
              rw [face_loop_spec atoi _ _ _ c2 m (le_refl _), p2]
        · simp [hface]

/-! Lemmas on appending to the stores -/

theorem take_succ_set {β : Type} (l : List β) (n : Nat) (a : β) (h : n < l.length) :
    (l.set n a).take (n + 1) = l.take n ++ [a] := by
  have hlen : (l.take n).length = n := by
    rw [List.length_take]
    omega
  rw [List.set_take, List.take_succ, List.getElem?_eq_getElem h, List.set_append, hlen,
    if_neg (lt_irrefl n), Nat.sub_self]
  rfl

theorem realloc_grow {β : Type} (store : List β) (n : Nat) (junk : β)
    (h : store.length ≤ n) :
    realloc store n junk = store ++ List.replicate (n - store.length) junk := by
  unfold realloc
  rw [List.take_of_length_le h]

theorem model_init_well_formed {α : Type} [Zero α] :
    (model_init : model α).well_formed := by
  constructor <;> simp [model_init]

theorem model_add_vertex_spec {α : Type} [Zero α] (m : model α) (v : vec3 α)
    (hwf : m.well_formed) :
    (model_add_vertex m v).well_formed ∧
    (model_add_vertex m v).vertices = m.vertices ++ [v] ∧
    (model_add_vertex m v).vertex_count = m.vertex_count + 1 ∧
    (model_add_vertex m v).indices = m.indices ∧
    (model_add_vertex m v).faces_count = m.faces_count := by
  obtain ⟨h1, h2, h3, h4, h5, h6⟩ := hwf
  unfold model_add_vertex
  by_cases hfull : m.vertex_count = m.vertex_capacity
  · dsimp only
    rw [if_pos hfull]
    dsimp only
    rw [realloc_grow _ _ _ (by omega), h3]
    have hlt : m.vertex_capacity < (m.vertexes ++
        List.replicate (m.vertex_capacity * 2 - m.vertex_capacity) vec3.zero).length := by
      simp only [List.length_append, List.length_replicate, h3]
      omega
    refine ⟨⟨?_, ?_, ?_, h4, h5, h6⟩, ?_, rfl, rfl, rfl⟩
    · show 1 ≤ m.vertex_capacity * 2
      omega
    · show m.vertex_count + 1 ≤ m.vertex_capacity * 2
      omega
    · show (List.set _ _ _).length = m.vertex_capacity * 2
      simp only [List.length_set, List.length_append, List.length_replicate, h3]
      omega
    · show List.take (m.vertex_count + 1) (List.set _ _ _) = List.take _ _ ++ [v]
      rw [take_succ_set _ _ _ (by omega), List.take_append_of_le_length (by omega)]
  · dsimp only
    rw [if_neg hfull]
    have hlt : m.vertex_count < m.vertexes.length := by omega
    refine ⟨⟨h1, ?_, ?_, h4, h5, h6⟩, ?_, rfl, rfl, rfl⟩
    · show m.vertex_count + 1 ≤ m.vertex_capacity
      omega
    · show (List.set _ _ _).length = m.vertex_capacity
      simp only [List.length_set, h3]
    · show List.take (m.vertex_count + 1) (List.set _ _ _) = List.take _ _ ++ [v]
      rw [take_succ_set _ _ _ hlt]

theorem take_three_set {β : Type} (l : List β) (n : Nat) (a b c : β) (h : n + 2 < l.length) :
    (((l.set n a).set (n + 1) b).set (n + 2) c).take (n + 3) = l.take n ++ [a, b, c] := by
  rw [take_succ_set _ (n + 2) c (by simp only [List.length_set]; exact h),
    take_succ_set _ (n + 1) b (by simp only [List.length_set]; omega),
    take_succ_set _ n a (by omega)]
  simp

theorem model_add_face_spec {α : Type} (m : model α) (a b c : Int) (hwf : m.well_formed) :
    (model_add_face m a b c).1.well_formed ∧
    (model_add_face m a b c).1.indices =
      m.indices ++ [resolve m.vertex_count a, resolve m.vertex_count b,
        resolve m.vertex_count c] ∧
    (model_add_face m a b c).1.faces_count = m.faces_count + 1 ∧
    (model_add_face m a b c).1.vertexes = m.vertexes ∧
    (model_add_face m a b c).1.vertex_count = m.vertex_count ∧
    (model_add_face m a b c).1.vertex_capacity = m.vertex_capacity ∧
    (model_add_face m a b c).2 = (relativize_idx a m.vertex_count).2 ++
      (relativize_idx b m.vertex_count).2 ++ (relativize_idx c m.vertex_count).2 := by
  obtain ⟨h1, h2, h3, h4, h5, h6⟩ := hwf
  unfold model_add_face
  by_cases hfull : m.faces_count = m.faces_capacity
  · dsimp only
    rw [if_pos hfull]
    dsimp only
    rw [realloc_grow _ _ _ (by omega), h6]
    refine ⟨⟨h1, h2, h3, ?_, ?_, ?_⟩, ?_, rfl, rfl, rfl, rfl, rfl⟩
    · show 1 ≤ m.faces_capacity * 2
      omega
    · show m.faces_count + 1 ≤ m.faces_capacity * 2
      omega
    · show (List.set _ _ _).length = 3 * (m.faces_capacity * 2)
      simp only [List.length_set, List.length_append, List.length_replicate, h6]
      omega
    · show List.take (3 * m.faces_count + 3)
        (((List.set _ (3 * m.faces_count) _).set _ _).set _ _) = _
      rw [take_three_set _ _ _ _ _ (by
        simp only [List.length_append, List.length_replicate, h6]
        omega), List.take_append_of_le_length (by omega)]
      rfl
  · dsimp only
    rw [if_neg hfull]
    refine ⟨⟨h1, h2, h3, h4, ?_, ?_⟩, ?_, rfl, rfl, rfl, rfl, rfl⟩
    · show m.faces_count + 1 ≤ m.faces_capacity
      omega
    · show (List.set _ _ _).length = 3 * m.faces_capacity
      simp only [List.length_set, h6]
    · show List.take (3 * m.faces_count + 3)
        (((List.set _ (3 * m.faces_count) _).set _ _).set _ _) = _
      rw [take_three_set _ _ _ _ _ (by omega)]
      rfl

theorem indices_length {α : Type} (m : model α) (hwf : m.well_formed) :
    m.indices.length = 3 * m.faces_count := by
  obtain ⟨_, _, _, _, h5, h6⟩ := hwf
  simp only [model.indices, List.length_take, h6]
  omega

theorem triples_append (l : List Int) (k : Nat) (hl : l.length = 3 * k) (l2 : List Int) :
    triples (l ++ l2) = triples l ++ triples l2 := by
  induction k generalizing l with
  | zero =>
    have : l = [] := List.length_eq_zero.mp (by omega)
    subst this
    simp [triples]
  | succ k ih =>
    match l, hl with
    | a :: b :: c :: rest, hl =>
      have hr : rest.length = 3 * k := by
        simp only [List.length_cons] at hl
        omega
      show (a, b, c) :: triples (rest ++ l2) = (a, b, c) :: (triples rest ++ triples l2)
      rw [ih rest hr]
    | [], hl => simp at hl
    | [_], hl => simp at hl; omega
    | [_, _], hl => simp at hl; omega

theorem model_add_face_faces {α : Type} (m : model α) (a b c : Int) (hwf : m.well_formed) :
    (model_add_face m a b c).1.faces =
      m.faces ++ [(resolve m.vertex_count a, resolve m.vertex_count b,
        resolve m.vertex_count c)] := by
  unfold model.faces
  rw [(model_add_face_spec m a b c hwf).2.1,
    triples_append _ _ (indices_length m hwf)]
  rfl

theorem resolve_nonneg (n : Nat) (i : Int) : 0 ≤ resolve n i := by
  unfold resolve relativize_idx relativize_idx_path
  split_ifs <;> simp <;> omega

theorem add_fan_spec {α : Type} (i1 : Int) (more : List Int) (i2 : Int) (m : model α)
    (hwf : m.well_formed) :
    (add_fan i1 i2 more m).1.well_formed ∧
    (add_fan i1 i2 more m).1.faces =
      m.faces ++ (fan_triples i1 i2 more).map (resolve_triple m.vertex_count) ∧
    (add_fan i1 i2 more m).1.vertexes = m.vertexes ∧
    (add_fan i1 i2 more m).1.vertex_count = m.vertex_count ∧
    (add_fan i1 i2 more m).1.faces_count = m.faces_count + more.length ∧
    ((∀ x ∈ m.indices, 0 ≤ x) → ∀ x ∈ (add_fan i1 i2 more m).1.indices, 0 ≤ x) := by
  induction more generalizing i2 m with
  | nil =>
    refine ⟨hwf, ?_, rfl, rfl, rfl, fun h => h⟩
    simp only [add_fan, fan_triples, List.map_nil, List.append_nil]
  | cons i3 more ih =>
    obtain ⟨f1, f2, f3, f4, f5, _, _⟩ := model_add_face_spec m i1 i2 i3 hwf
    obtain ⟨g1, g2, g3, g4, g5, g6⟩ := ih i3 (model_add_face m i1 i2 i3).1 f1
    simp only [add_fan, fan_triples, List.map_cons, List.length_cons]
    refine ⟨g1, ?_, ?_, ?_, ?_, ?_⟩
    · rw [g2, model_add_face_faces m i1 i2 i3 hwf, f5, List.append_assoc]
      rfl
    · rw [g3, f4]
    · rw [g4, f5]
    · rw [g5, f3]
      omega
    · intro h
      apply g6
      rw [f2]
      intro x hx
      rcases List.mem_append.mp hx with hx | hx
      · exact h x hx
      · simp only [List.mem_cons, List.mem_singleton, List.not_mem_nil, or_false] at hx
        rcases hx with hx | hx | hx <;> rw [hx] <;> exact resolve_nonneg _ _

theorem line_effect_spec {α : Type} [Zero α] (atof : CStr → α) (atoi : CStr → Int)
    (m m1 : model α) (toks : List CStr) (hwf : m.well_formed)
    (h : (line_effect atof atoi m toks).1 = some m1) :
    m1.well_formed ∧
    m1.vertices = m.vertices ++ (line_vertex atof toks).toList ∧
    ((∀ x ∈ m.indices, 0 ≤ x) → ∀ x ∈ m1.indices, 0 ≤ x) := by
  cases toks with
  | nil =>
    simp only [line_effect, Option.some.injEq] at h
    subst h
    simp [line_vertex, hwf]
  | cons instr args =>
    simp only [line_effect] at h
    by_cases hc : instr.head? = some '#'
    · have hv : instr ≠ ['v'] := by
        intro hv
        rw [hv] at hc
        simp at hc
      simp only [hc, if_true, Option.some.injEq] at h
      subst h
      refine ⟨hwf, ?_, fun hx => hx⟩
      match args with
      | [] => simp [line_vertex]
      | [_] => simp [line_vertex]
      | [_, _] => simp [line_vertex]
      | _ :: _ :: _ :: _ => simp [line_vertex, hv]
    · simp only [hc, if_false] at h
      by_cases hv : instr = ['v']
      · simp only [hv, if_true] at h
        match args, h with
        | [], h => simp at h
        | [_], h => simp at h
        | [_, _], h => simp at h
        | a :: b :: c :: rest, h =>
          simp only [Option.some.injEq] at h
          subst h
          obtain ⟨w1, w2, _, w4, _⟩ := model_add_vertex_spec m
            ⟨atof (before_slash a), atof (before_slash b), atof (before_slash c)⟩ hwf
          refine ⟨w1, ?_, ?_⟩
          · rw [w2]
            simp [line_vertex, hv]
          · rw [w4]
            exact fun hx => hx
      · have hnv : (line_vertex atof (instr :: args)).toList = [] := by
          match args with
          | [] => simp [line_vertex]
          | [_] => simp [line_vertex]
          | [_, _] => simp [line_vertex]
          | _ :: _ :: _ :: _ => simp [line_vertex, hv]
        rw [hnv, List.append_nil]
        simp only [hv, if_false] at h
        by_cases hface : instr = ['f']
        · simp only [hface, if_true] at h
          match args, h with
          | [], h => simp at h
          | [_], h => simp at h
          | a :: b :: rest, h =>
            simp only [Option.some.injEq] at h
            subst h
            obtain ⟨g1, _, g3, g4, _, g6⟩ := add_fan_spec (atoi (before_slash a))
              (rest.map (fun t => atoi (before_slash t))) (atoi (before_slash b)) m hwf
            refine ⟨g1, ?_, g6⟩
            simp only [model.vertices, g3, g4]
        · simp only [hface, if_false, Option.some.injEq] at h
          subst h
          exact ⟨hwf, rfl, fun hx => hx⟩

/-! Lemmas on the line loop -/

theorem line_effect_none_iff {α : Type} [Zero α] (atof : CStr → α) (atoi : CStr → Int)
    (m : model α) (toks : List CStr) :
    (line_effect atof atoi m toks).1 = none ↔
      ((∃ args, toks = ['v'] :: args ∧ args.length < 3) ∨
       (∃ args, toks = ['f'] :: args ∧ args.length < 2)) := by
  cases toks with
  | nil => simp [line_effect]
  | cons instr args =>
    simp only [line_effect]
    by_cases hc : instr.head? = some '#'
    · have hv : instr ≠ ['v'] := by
        intro hv
        rw [hv] at hc
        simp at hc
      have hf : instr ≠ ['f'] := by
        intro hf
        rw [hf] at hc
        simp at hc
      simp [hc, hv, hf]
    · simp only [hc, if_false]
      by_cases hv : instr = ['v']
      · subst hv
        match args with
        | [] => simp
        | [_] => simp
        | [_, _] => simp
        | _ :: _ :: _ :: _ => simp
      · simp only [hv, if_false]
        by_cases hface : instr = ['f']
        · subst hface
          match args with
          | [] => simp
          | [_] => simp
          | _ :: _ :: _ => simp
        · simp [hv, hface]

theorem process_line_none_iff {α : Type} [Zero α] (atof : CStr → α) (atoi : CStr → Int)
    (m : model α) (line : CStr) :
    (process_line atof atoi m line).1 = none ↔ malformed_line line := by
  rw [process_line_eq, line_effect_none_iff]
  rfl

theorem load_loop_none_iff {α : Type} [Zero α] (atof : CStr → α) (atoi : CStr → Int)
    (lines : List CStr) (m : model α) :
    (load_loop atof atoi lines m).1 = none ↔ ∃ line ∈ lines, malformed_line line := by
  induction lines generalizing m with
  | nil => simp [load_loop]
  | cons line more ih =>
    have hp := process_line_none_iff atof atoi m line
    unfold load_loop
    generalize process_line atof atoi m line = r at hp
    obtain ⟨res, e⟩ := r
    cases res with
    | none =>
      simp only [true_iff] at hp
      simp only [List.mem_cons, true_iff]
      exact ⟨line, Or.inl rfl, hp⟩
    | some m1 =>
      have hnot : ¬ malformed_line line := by
        intro hm
        have := hp.mpr hm
        simp at this
      simp only [ih m1, List.mem_cons]
      constructor
      · rintro ⟨l, hl, hm⟩
        exact ⟨l, Or.inr hl, hm⟩
      · rintro ⟨l, hl | hl, hm⟩
        · subst hl
          exact absurd hm hnot
        · exact ⟨l, hl, hm⟩

theorem load_loop_spec {α : Type} [Zero α] (atof : CStr → α) (atoi : CStr → Int)
    (lines : List CStr) (m m1 : model α) (hwf : m.well_formed)
    (h : (load_loop atof atoi lines m).1 = some m1) :
    m1.well_formed ∧
    m1.vertices = m.vertices ++ lines.filterMap (fun l => line_vertex atof (fields l)) ∧
    ((∀ x ∈ m.indices, 0 ≤ x) → ∀ x ∈ m1.indices, 0 ≤ x) := by
  induction lines generalizing m with
  | nil =>
    simp only [load_loop, Option.some.injEq] at h
    subst h
    simp [hwf]
  | cons line more ih =>
    unfold load_loop at h
    have hp : ∀ m2, (process_line atof atoi m line).1 = some m2 → m.well_formed → _ :=
      fun m2 h2 hw => line_effect_spec atof atoi m m2 (fields line) hw
        (by rw [← process_line_eq]; exact h2)
    generalize process_line atof atoi m line = r at h hp
    obtain ⟨res, e⟩ := r
    cases res with
    | none => simp at h
    | some m2 =>
      simp only at h
      obtain ⟨p1, p2, p3⟩ := hp m2 rfl hwf
      obtain ⟨q1, q2, q3⟩ := ih m2 p1 h
      refine ⟨q1, ?_, fun hx => q3 (p3 hx)⟩
      rw [q2, p2, List.filterMap_cons]
      cases line_vertex atof (fields line) <;> simp

set_option maxRecDepth 100000 in
theorem quad_file_loads :
    (model_load_from_obj atof_integer libc_atoi model_init (some quad_file)).1 = some quad_mesh := by
  decide

set_option maxRecDepth 100000 in
theorem short_v_line_malformed : malformed_line "v 1.0 2.0\n".toList :=
  Or.inl ⟨["1.0".toList, "2.0\n".toList], by decide, by decide⟩

/-- C6, amended: provided the call of `model_init` yields the mesh it
initialised (`made = model_init`: the C function has no `return` statement, so
C does not promise it), the load of an opened file returns no mesh if and only
if some line read into the line buffer is malformed, that is, its first field
is exactly `v` and fewer than three fields follow, or its first field is
exactly `f` and fewer than two fields follow.  A line read into the buffer is
what one `fgets` call reads, taken as a C string, that is, up to its first NUL
character if it holds one: a whole line of the file if it has at most 255
characters with its newline, else each successive piece of at most 255
characters of it.  A field is a maximal run of non-space characters, and every
field counts as numeric.  On failure the result is no mesh at all, whatever
lines came before.  The content `v 1.0 2.0\n` fails to load. -/
theorem model_load_from_obj_fails_iff {α : Type} [Zero α] (atof : CStr → α)
    (atoi : CStr → Int) (made : model α) (hmade : made = model_init)
    (content : List Char) :
    ((model_load_from_obj atof atoi made (some content)).1 = none ↔
      ∃ line ∈ file_lines content, malformed_line line) ∧
    (model_load_from_obj atof atoi made (some "v 1.0 2.0\n".toList)).1 = none := by
  subst hmade
  have key : ∀ c : List Char, (model_load_from_obj atof atoi model_init (some c)).1 = none ↔
      ∃ line ∈ file_lines c, malformed_line line := by
    intro c
    rw [← load_loop_none_iff atof atoi (file_lines c) model_init]
    unfold model_load_from_obj
    dsimp only
    split <;> rename_i heq <;> simp [heq]
  refine ⟨key content, (key _).mpr ⟨"v 1.0 2.0\n".toList, ?_, short_v_line_malformed⟩⟩
  decide

theorem model_load_from_obj_fails_iff_witness :
    (model_init : model Int) = model_init ∧
    (((model_load_from_obj atof_integer libc_atoi model_init (some quad_file)).1 = none ↔
        ∃ line ∈ file_lines quad_file, malformed_line line) ∧
      (model_load_from_obj atof_integer libc_atoi model_init
        (some "v 1.0 2.0\n".toList)).1 = none) :=
  ⟨rfl, model_load_from_obj_fails_iff atof_integer libc_atoi model_init rfl quad_file⟩

theorem model_load_from_obj_some {α : Type} [Zero α] (atof : CStr → α) (atoi : CStr → Int)
    (content : List Char) (m : model α)
    (h : (model_load_from_obj atof atoi model_init (some content)).1 = some m) :
    ∃ m0, (load_loop atof atoi (file_lines content) model_init).1 = some m0 ∧
      m = (model_validate_idxs m0).2.1 := by
  unfold model_load_from_obj at h
  dsimp only at h
  split at h
  · simp at h
  · rename_i m0 e heq
    simp only [Option.some.injEq] at h
    exact ⟨m0, by rw [heq], h.symm⟩

theorem well_formed_store {α : Type} (m : model α) (hwf : m.well_formed) :
    m.vertex_count ≤ m.vertexes.length ∧ 3 * m.faces_count ≤ m.idxs.length := by
  obtain ⟨_, h2, h3, _, h5, h6⟩ := hwf
  omega

theorem line_vertex_isSome_iff {α : Type} (atof : CStr → α) (line : CStr)
    (h : ¬ malformed_line line) :
    (line_vertex atof (fields line)).isSome = decide ((fields line).head? = some ['v']) := by
  unfold malformed_line at h
  match hf : fields line with
  | [] => simp [line_vertex]
  | [instr] =>
    rw [hf] at h
    have : instr ≠ ['v'] := by
      intro hv
      apply h
      left
      exact ⟨[], by rw [hv], by simp⟩
    simp [line_vertex, this]
  | [instr, a] =>
    rw [hf] at h
    have : instr ≠ ['v'] := by
      intro hv
      apply h
      left
      exact ⟨[a], by rw [hv], by simp⟩
    simp [line_vertex, this]
  | [instr, a, b] =>
    rw [hf] at h
    have : instr ≠ ['v'] := by
      intro hv
      apply h
      left
      exact ⟨[a, b], by rw [hv], by simp⟩
    simp [line_vertex, this]
  | instr :: a :: b :: c :: rest =>
    by_cases hv : instr = ['v'] <;> simp [line_vertex, hv]

theorem filterMap_length_eq_filter {α : Type} (atof : CStr → α) (lines : List CStr)
    (h : ∀ line ∈ lines, ¬ malformed_line line) :
    (lines.filterMap (fun l => line_vertex atof (fields l))).length =
      (lines.filter (fun l => decide ((fields l).head? = some ['v']))).length := by
  induction lines with
  | nil => rfl
  | cons line more ih =>
    have h1 := line_vertex_isSome_iff atof line (h line (List.mem_cons_self _ _))
    have h2 := ih (fun l hl => h l (List.mem_cons_of_mem _ hl))
    rw [List.filterMap_cons, List.filter_cons]
    cases hv : line_vertex atof (fields line) with
    | none =>
      rw [hv] at h1
      simp only [Option.isSome_none] at h1
      simp only [← h1]
      exact h2
    | some v =>
      rw [hv] at h1
      simp only [Option.isSome_some] at h1
      simp only [← h1, if_true, List.length_cons, h2]

/-- C7, amended: provided the call of `model_init` yields the mesh it
initialised (`made = model_init`: the C function has no `return` statement, so
C does not promise it), when the load succeeds the live vertices of the
returned mesh are exactly the triples read by `atof` from the first three
fields (each up to its first `/`) of the lines read into the line buffer whose
first field is `v`, in the order they are read, and `vertex_count` is the
number of those lines; fields after the third do not enter the result.  A line
read into the buffer is what one `fgets` call reads, taken as a C string, that
is, up to its first NUL character if it holds one: a whole line of the file if
it has at most 255 characters with its newline, else each successive piece of
at most 255 characters of it. -/
theorem model_load_from_obj_vertices {α : Type} [Zero α] (atof : CStr → α)
    (atoi : CStr → Int) (made : model α) (hmade : made = model_init)
    (content : List Char) (m : model α)
    (h : (model_load_from_obj atof atoi made (some content)).1 = some m) :
    m.vertices = (file_lines content).filterMap (fun l => line_vertex atof (fields l)) ∧
    m.vertex_count =
      ((file_lines content).filter (fun l => decide ((fields l).head? = some ['v']))).length := by
  subst hmade
  obtain ⟨m0, h0, hm⟩ := model_load_from_obj_some atof atoi content m h
  obtain ⟨w1, w2, _⟩ := load_loop_spec atof atoi (file_lines content) model_init m0
    model_init_well_formed h0
  obtain ⟨s1, s2⟩ := well_formed_store m0 w1
  obtain ⟨v5, _, v4, _⟩ := validate_loop_spec m0 (3 * m0.faces_count) s2
  change (model_validate_idxs m0).2.1.vertex_count = m0.vertex_count at v5
  change (model_validate_idxs m0).2.1.vertexes = m0.vertexes at v4
  have hgood : ∀ line ∈ file_lines content, ¬ malformed_line line := by
    intro line hl hbad
    have := (load_loop_none_iff atof atoi (file_lines content) model_init).mpr ⟨line, hl, hbad⟩
    rw [h0] at this
    cases this
  have hv : m.vertices =
      (file_lines content).filterMap (fun l => line_vertex atof (fields l)) := by
    rw [hm]
    unfold model.vertices
    rw [v4, v5]
    have : (model_init : model α).vertices = [] := rfl
    rw [← List.nil_append (List.filterMap _ _), ← this]
    exact w2
  refine ⟨hv, ?_⟩
  rw [← filterMap_length_eq_filter atof _ hgood, ← hv, hm, vertices_length _ (by rw [v4, v5]; exact s1)]

theorem model_load_from_obj_vertices_witness :
    ((model_init : model Int) = model_init ∧
      (model_load_from_obj atof_integer libc_atoi model_init (some quad_file)).1 =
        some quad_mesh) ∧
    (quad_mesh.vertices =
      (file_lines quad_file).filterMap (fun l => line_vertex atof_integer (fields l)) ∧
    quad_mesh.vertex_count =
      ((file_lines quad_file).filter
        (fun l => decide ((fields l).head? = some ['v']))).length) :=
  ⟨⟨rfl, quad_file_loads⟩,
    model_load_from_obj_vertices atof_integer libc_atoi model_init rfl quad_file quad_mesh
      quad_file_loads⟩

theorem validated_indices {α : Type} (m : model α) (hwf : m.well_formed) :
    (model_validate_idxs m).2.1.indices = m.indices.map (repair_index m.vertex_count) ∧
    (model_validate_idxs m).2.1.vertex_count = m.vertex_count := by
  obtain ⟨_, s2⟩ := well_formed_store m hwf
  obtain ⟨h1, _, _, h4, _, h6, _⟩ := validate_loop_spec m (3 * m.faces_count) s2
  have hlen : ((m.idxs.take (3 * m.faces_count)).map (repair_index m.vertex_count)).length
      = 3 * m.faces_count := by
    simp [List.length_take]
    omega
  refine ⟨?_, h1⟩
  unfold model.indices model_validate_idxs
  rw [h4, h6, List.take_append_eq_append_take, hlen]
  simp [List.take_of_length_le (le_of_eq hlen)]

set_option maxRecDepth 100000 in
/-- C2, counterexample, with the call of `model_init` yielding the mesh it
initialised: the one-line file `f 1 2 3` loads into a mesh with no vertex and
the stored indices 0, 0, 0, none of which is below `vertex_count`. -/
theorem model_load_from_obj_no_vertex :
    (model_load_from_obj atof_integer libc_atoi model_init (some "f 1 2 3\n".toList)).1 =
      some no_vertex_mesh ∧
    no_vertex_mesh.vertex_count = 0 ∧ no_vertex_mesh.indices = [0, 0, 0] ∧
    ¬ (∀ i ∈ no_vertex_mesh.indices, 0 ≤ i ∧ i < (no_vertex_mesh.vertex_count : Int)) := by
  decide

/-- C2, amended: provided the call of `model_init` yields the mesh it
initialised (`made = model_init`: the C function has no `return` statement, so
C does not promise it), when the load succeeds every face index stored in the
returned mesh is at least 0; it is below `vertex_count` provided the mesh has
at least one vertex, and when the mesh has no vertex every stored index is 0. -/
theorem model_load_from_obj_indices {α : Type} [Zero α] (atof : CStr → α)
    (atoi : CStr → Int) (made : model α) (hmade : made = model_init)
    (content : List Char) (m : model α)
    (h : (model_load_from_obj atof atoi made (some content)).1 = some m) :
    (∀ i ∈ m.indices, 0 ≤ i) ∧
    (1 ≤ m.vertex_count → ∀ i ∈ m.indices, 0 ≤ i ∧ i < (m.vertex_count : Int)) ∧
    (m.vertex_count = 0 → ∀ i ∈ m.indices, i = 0) := by
  subst hmade
  obtain ⟨m0, h0, hm⟩ := model_load_from_obj_some atof atoi content m h
  obtain ⟨w1, _, w3⟩ := load_loop_spec atof atoi (file_lines content) model_init m0
    model_init_well_formed h0
  have hnn : ∀ x ∈ m0.indices, 0 ≤ x := w3 (by
    intro x hx
    simp [model.indices, model_init] at hx)
  obtain ⟨v1, v2⟩ := validated_indices m0 w1
  rw [← hm] at v1 v2
  have key : ∀ i ∈ m.indices, ∃ y ∈ m0.indices, i = repair_index m0.vertex_count y := by
    intro i hi
    rw [v1] at hi
    obtain ⟨y, hy, rfl⟩ := List.mem_map.mp hi
    exact ⟨y, hy, rfl⟩
  refine ⟨?_, ?_, ?_⟩
  · intro i hi
    obtain ⟨y, hy, rfl⟩ := key i hi
    have := hnn y hy
    unfold repair_index
    split_ifs <;> omega
  · intro hpos i hi
    obtain ⟨y, hy, rfl⟩ := key i hi
    have := hnn y hy
    rw [v2]
    unfold repair_index
    split_ifs <;> omega
  · intro hzero i hi
    obtain ⟨y, hy, rfl⟩ := key i hi
    have := hnn y hy
    rw [v2] at hzero
    unfold repair_index
    split_ifs <;> omega

theorem model_load_from_obj_indices_witness :
    ((model_init : model Int) = model_init ∧
      (model_load_from_obj atof_integer libc_atoi model_init (some quad_file)).1 =
        some quad_mesh) ∧
    ((∀ i ∈ quad_mesh.indices, 0 ≤ i) ∧
    (1 ≤ quad_mesh.vertex_count →
      ∀ i ∈ quad_mesh.indices, 0 ≤ i ∧ i < (quad_mesh.vertex_count : Int)) ∧
    (quad_mesh.vertex_count = 0 → ∀ i ∈ quad_mesh.indices, i = 0)) :=
  ⟨⟨rfl, quad_file_loads⟩,
    model_load_from_obj_indices atof_integer libc_atoi model_init rfl quad_file quad_mesh
      quad_file_loads⟩

/-! Lemmas on fan triangulation -/

theorem resolve_positive (n : Nat) (i : Int) (hi : 1 ≤ i) : resolve n i = i - 1 := by
  unfold resolve
  rw [relativize_idx_positive i n (by omega) (by omega)]

theorem fan_triples_resolve (n : Nat) (i1 : Int) (h1 : 1 ≤ i1) (more : List Int) (i2 : Int)
    (h2 : 1 ≤ i2) (hmore : ∀ x ∈ more, 1 ≤ x) :
    (fan_triples i1 i2 more).map (resolve_triple n) =
      (List.range more.length).map
        (fun j => (i1 - 1, (i2 :: more).getD j 0 - 1, more.getD j 0 - 1)) := by
  induction more generalizing i2 with
  | nil => rfl
  | cons i3 more ih =>
    have h3 : 1 ≤ i3 := hmore i3 (List.mem_cons_self _ _)
    rw [List.length_cons, List.range_succ_eq_map, fan_triples, List.map_cons,
      ih i3 h3 (fun x hx => hmore x (List.mem_cons_of_mem _ hx)), List.map_cons, List.map_map]
    simp only [resolve_triple, resolve_positive n i1 h1, resolve_positive n i2 h2,
      resolve_positive n i3 h3, List.getD_cons_zero]
    rfl

theorem fan_faces_cons_cons (i1 i2 : Int) (more : List Int) :
    fan_faces (i1 :: i2 :: more) =
      (List.range more.length).map
        (fun j => (i1 - 1, (i2 :: more).getD j 0 - 1, more.getD j 0 - 1)) := by
  unfold fan_faces
  have e : (i1 :: i2 :: more).length - 2 = more.length := by simp
  rw [e]
  simp only [List.getD_cons_zero, List.getD_cons_succ]

set_option maxRecDepth 100000 in
/-- C1, amended: for every line whose first field is exactly `f` and whose
further fields (the maximal runs of characters other than the space, so that a
tab or the line terminator is part of a field; each read by `atoi` up to its
first `/`) have k >= 3 values a1..ak, each in [1, n] for the current vertex
count n, processing the line on a well-formed mesh appends exactly the k - 2
faces (a1-1, aj-1, a(j+1)-1), j = 2 .. k-1, in this order, and leaves the
earlier faces and the vertices unchanged; the four vertices of `quad_file`
followed by `f 1 2 3 4` give the faces (0,1,2) and (0,2,3) (the file being
loaded with the call of `model_init` yielding the mesh it initialised). -/
theorem face_line_fan {α : Type} [Zero α] (atof : CStr → α) (atoi : CStr → Int)
    (m : model α) (hwf : m.well_formed) (line : CStr) (ts : List CStr)
    (hfields : fields line = ['f'] :: ts) (hk : 3 ≤ ts.length)
    (hrange : ∀ t ∈ ts, 1 ≤ atoi (before_slash t) ∧
      atoi (before_slash t) ≤ (m.vertex_count : Int)) :
    (∃ m1, (process_line atof atoi m line).1 = some m1 ∧
      m1.faces = m.faces ++ fan_faces (ts.map (fun t => atoi (before_slash t))) ∧
      (fan_faces (ts.map (fun t => atoi (before_slash t)))).length = ts.length - 2 ∧
      m1.faces_count = m.faces_count + (ts.length - 2) ∧
      m1.vertices = m.vertices ∧ m1.vertex_count = m.vertex_count) ∧
    ((model_load_from_obj atof_integer libc_atoi model_init (some quad_file)).1 = some quad_mesh ∧
      quad_mesh.vertices = [⟨0, 0, 0⟩, ⟨1, 0, 0⟩, ⟨0, 1, 0⟩, ⟨0, 0, 1⟩] ∧
      quad_mesh.faces = [(0, 1, 2), (0, 2, 3)]) := by
  refine ⟨?_, quad_file_loads, by decide, by decide⟩
  match ts, hk, hfields, hrange with
  | a :: b :: rest, hk, hfields, hrange =>
    have ha := (hrange a (by simp)).1
    have hb := (hrange b (by simp)).1
    have hrest : ∀ x ∈ rest.map (fun t => atoi (before_slash t)), 1 ≤ x := by
      intro x hx
      obtain ⟨t, ht, rfl⟩ := List.mem_map.mp hx
      exact (hrange t (by simp [ht])).1
    obtain ⟨_, g2, g3, g4, g5, _⟩ := add_fan_spec (atoi (before_slash a))
      (rest.map (fun t => atoi (before_slash t))) (atoi (before_slash b)) m hwf
    refine ⟨_, ?_, ?_, ?_, ?_, ?_, g4⟩
    · rw [process_line_eq, hfields]
      simp [line_effect]
    · rw [g2, fan_triples_resolve _ _ ha _ _ hb hrest, List.map_cons, List.map_cons,
        fan_faces_cons_cons]
    · simp [fan_faces]
    · rw [g5]
      simp
    · simp only [model.vertices, g3, g4]

theorem four_vertex_mesh_well_formed : four_vertex_mesh.well_formed :=
  ⟨by decide, by decide, by decide, by decide, by decide, by decide⟩

set_option maxRecDepth 100000 in
theorem face_line_fan_witness :
    four_vertex_mesh.well_formed ∧
    fields quad_face_line = ['f'] :: quad_face_fields ∧
    3 ≤ quad_face_fields.length ∧
    (∀ t ∈ quad_face_fields, 1 ≤ libc_atoi (before_slash t) ∧
      libc_atoi (before_slash t) ≤ (four_vertex_mesh.vertex_count : Int)) ∧
    ((∃ m1, (process_line atof_integer libc_atoi four_vertex_mesh quad_face_line).1 = some m1 ∧
      m1.faces = four_vertex_mesh.faces ++
        fan_faces (quad_face_fields.map (fun t => libc_atoi (before_slash t))) ∧
      (fan_faces (quad_face_fields.map (fun t => libc_atoi (before_slash t)))).length =
        quad_face_fields.length - 2 ∧
      m1.faces_count = four_vertex_mesh.faces_count + (quad_face_fields.length - 2) ∧
      m1.vertices = four_vertex_mesh.vertices ∧
      m1.vertex_count = four_vertex_mesh.vertex_count) ∧
    ((model_load_from_obj atof_integer libc_atoi model_init (some quad_file)).1 = some quad_mesh ∧
      quad_mesh.vertices = [⟨0, 0, 0⟩, ⟨1, 0, 0⟩, ⟨0, 1, 0⟩, ⟨0, 0, 1⟩] ∧
      quad_mesh.faces = [(0, 1, 2), (0, 2, 3)])) :=
  ⟨four_vertex_mesh_well_formed, by decide, by decide, by decide,
    face_line_fan atof_integer libc_atoi four_vertex_mesh four_vertex_mesh_well_formed
      quad_face_line quad_face_fields (by decide) (by decide) (by decide)⟩

/-! The line reader loses no character of the file -/

theorem fgets_append (room : Nat) (cs : List Char) :
    (fgets room cs).1 ++ (fgets room cs).2 = cs := by
  induction room generalizing cs with
  | zero => simp [fgets]
  | succ room ih =>
    cases cs with
    | nil => simp [fgets]
    | cons c cs =>
      unfold fgets
      by_cases hc : c = '\n'
      · simp [hc]
      · simp only [hc, if_false, List.cons_append, ih cs]

theorem fgets_rest_length (room : Nat) (c : Char) (cs : List Char) :
    (fgets (room + 1) (c :: cs)).2.length ≤ cs.length := by
  have h := congrArg List.length (fgets_append (room + 1) (c :: cs))
  have h1 : 1 ≤ (fgets (room + 1) (c :: cs)).1.length := by
    unfold fgets
    by_cases hc : c = '\n' <;> simp [hc]
  simp only [List.length_append, List.length_cons] at h
  omega

theorem read_buffers_flatten (fuel : Nat) (content : List Char)
    (hf : content.length ≤ fuel) :
    (read_buffers fuel content).flatten = content := by
  induction fuel generalizing content with
  | zero =>
    have : content = [] := List.length_eq_zero.mp (by omega)
    subst this
    rfl
  | succ fuel ih =>
    cases content with
    | nil => rfl
    | cons c cs =>
      have hlen : (fgets 255 (c :: cs)).2.length ≤ cs.length := fgets_rest_length 254 c cs
      simp only [List.length_cons] at hf
      unfold read_buffers
      rw [List.flatten_cons, ih _ (by omega), fgets_append]

/-! Inputs on which the loader departs from the fields and lines of the text -/

set_option maxRecDepth 1000000 in
/-- C1, counterexample: on the face line `f 1 2 3 ` (a space before the line
terminator), whose fields are the keyword and the three indices 1, 2, 3, all
in [1, 4], processing the line on a mesh of four vertices appends two faces,
(0,1,2) and (0,2,0), not the single face (0,1,2) of the fan of 1, 2, 3: the
line terminator after the last space is read as a fourth index field. -/
theorem face_line_trailing_space :
    spec_fields "f 1 2 3 \n".toList = ["f".toList, "1".toList, "2".toList, "3".toList] ∧
    four_vertex_mesh.vertex_count = 4 ∧ four_vertex_mesh.faces = [] ∧
    fan_faces [1, 2, 3] = [(0, 1, 2)] ∧
    (process_line atof_integer libc_atoi four_vertex_mesh "f 1 2 3 \n".toList).1.map
      model.faces = some [(0, 1, 2), (0, 2, 0)] := by
  decide

set_option maxRecDepth 1000000 in
/-- C6, counterexample, with the call of `model_init` yielding the mesh it
initialised: the file `v` (keyword `v` with no field after it) loads into a
mesh, the keyword read being `v` with the line terminator; and a file whose
only line is a comment longer than the line buffer fails to load, the rest of
the line, `v 1`, being read by the next `fgets` and processed as a line of its
own. -/
theorem load_failure_not_by_text_lines :
    (spec_fields "v\n".toList = ["v".toList] ∧
      (model_load_from_obj atof_integer libc_atoi model_init (some "v\n".toList)).1 = some model_init) ∧
    (text_lines long_comment_file = [long_comment_file.dropLast, []] ∧
      (spec_fields long_comment_file.dropLast).head? = some ['#'] ∧
      (model_load_from_obj atof_integer libc_atoi model_init (some long_comment_file)).1 = none) := by
  decide

set_option maxRecDepth 1000000 in
/-- C7, counterexample, with the call of `model_init` yielding the mesh it
initialised: the file whose only line is `v`, a tab, `1 2 3` loads into a mesh
with no vertex, the keyword read being `v`, the tab and `1` together; and a
file whose only line is a comment longer than the line buffer loads into a
mesh with the vertex (1,2,3), read from the rest of the line by the next
`fgets`. -/
theorem loaded_vertices_not_by_text_lines :
    (spec_fields "v\t1 2 3\n".toList = ["v".toList, "1".toList, "2".toList, "3".toList] ∧
      (model_load_from_obj atof_integer libc_atoi model_init (some "v\t1 2 3\n".toList)).1.map
        model.vertices = some []) ∧
    (text_lines long_comment_vertex_file = [long_comment_vertex_file.dropLast, []] ∧
      (spec_fields long_comment_vertex_file.dropLast).head? = some ['#'] ∧
      (model_load_from_obj atof_integer libc_atoi model_init (some long_comment_vertex_file)).1.map
        model.vertices = some [⟨1, 2, 3⟩]) := by
  decide

/-! Lemmas on `str_chop` with an arbitrary delimiter -/

theorem str_chop_scan_no_loss (delim : CStr) (rest seen pre : CStr) (di : Nat)
    (hseen : seen = pre ++ delim.take di) (hdi : di < delim.length) :
    (∀ r, (str_chop_scan delim seen di rest).2 = some r →
      (str_chop_scan delim seen di rest).1 ++ delim ++ r = seen ++ rest) ∧
    ((str_chop_scan delim seen di rest).2 = none →
      (str_chop_scan delim seen di rest).1 = seen ++ rest) := by
  induction rest generalizing seen pre di with
  | nil => simp [str_chop_scan]
  | cons c cs ih =>
    unfold str_chop_scan
    by_cases hc : delim[di]? = some c
    · simp only [hc, if_true]
      have hcd : delim.take (di + 1) = delim.take di ++ [c] := by
        rw [List.take_succ, hc]
        rfl
      by_cases hlen : di + 1 = delim.length
      · simp only [hlen, if_true]
        have hfull : delim.take di ++ [c] = delim := by
          rw [← hcd, hlen, List.take_length]
        have hsc : seen ++ [c] = pre ++ delim := by
          rw [hseen, List.append_assoc, hfull]
        refine ⟨?_, ?_⟩
        · intro r hr
          simp only [Option.some.injEq] at hr
          subst hr
          have e : seen ++ c :: cs = (seen ++ [c]) ++ cs := by simp
          rw [e, hsc]
          simp
        · intro hr
          cases hr
      · simp only [hlen, if_false]
        have := ih (seen ++ [c]) pre (di + 1)
          (by rw [hseen, List.append_assoc, hcd]) (by omega)
        simpa using this
    · simp only [hc, if_false]
      have h0 : (0 : Nat) ≠ delim.length := by omega
      simp only [h0, if_false]
      have := ih (seen ++ [c]) (seen ++ [c]) 0 (by simp) (by omega)
      simpa using this

/-- C20: for every text and every non-empty delimiter, if `str_chop` leaves the
cursor non-exhausted then the returned token, the delimiter and the text at
the cursor make up the original text in this order; if it leaves the cursor
exhausted the returned token is the whole text; hence when the delimiter does
not occur in the text the whole text is returned and the cursor is
exhausted. -/
theorem str_chop_no_loss (text delim : CStr) (h : delim ≠ []) :
    (∀ rest, (str_chop (some text) delim h).2 = some rest →
      ∃ tok, (str_chop (some text) delim h).1 = some tok ∧ tok ++ delim ++ rest = text) ∧
    ((str_chop (some text) delim h).2 = none →
      (str_chop (some text) delim h).1 = some text) ∧
    (¬ delim <:+: text → str_chop (some text) delim h = (some text, none)) := by
  have hpos : 0 < delim.length := List.length_pos.mpr h
  obtain ⟨h1, h2⟩ := str_chop_scan_no_loss delim text [] [] 0 (by simp) hpos
  simp only [List.nil_append] at h1 h2
  have e1 : (str_chop (some text) delim h).1 = some (str_chop_scan delim [] 0 text).1 := rfl
  have e2 : (str_chop (some text) delim h).2 = (str_chop_scan delim [] 0 text).2 := rfl
  refine ⟨?_, ?_, ?_⟩
  · intro rest hr
    rw [e2] at hr
    exact ⟨_, e1, h1 rest hr⟩
  · intro hr
    rw [e2] at hr
    rw [e1, h2 hr]
  · intro hno
    have hnone : (str_chop_scan delim [] 0 text).2 = none := by
      cases hr : (str_chop_scan delim [] 0 text).2 with
      | none => rfl
      | some r =>
        exfalso
        apply hno
        exact ⟨(str_chop_scan delim [] 0 text).1, r, h1 r hr⟩
    exact Prod.ext (by rw [e1, h2 hnone]) (by rw [e2, hnone])

theorem str_chop_no_loss_witness :
    delim_space ≠ [] ∧
    ((∀ rest, (str_chop (some "a b".toList) delim_space (by decide)).2 = some rest →
      ∃ tok, (str_chop (some "a b".toList) delim_space (by decide)).1 = some tok ∧
        tok ++ delim_space ++ rest = "a b".toList) ∧
    ((str_chop (some "a b".toList) delim_space (by decide)).2 = none →
      (str_chop (some "a b".toList) delim_space (by decide)).1 = some "a b".toList) ∧
    (¬ delim_space <:+: "a b".toList →
      str_chop (some "a b".toList) delim_space (by decide) = (some "a b".toList, none))) :=
  ⟨by decide, str_chop_no_loss "a b".toList delim_space (by decide)⟩

/-- C16, failing input: on the text `aab` with the delimiter `ab`, which occurs
in the text after the first `a`, `str_chop` finds no delimiter: it returns the
whole text and leaves the cursor exhausted; and on `aabab` it splits at the
second occurrence, not the first. -/
theorem str_chop_overlap_miss :
    "aab".toList = "a".toList ++ "ab".toList ++ [] ∧
    str_chop (some "aab".toList) "ab".toList (by decide) = (some "aab".toList, none) ∧
    str_chop (some "aabab".toList) "ab".toList (by decide) = (some "aab".toList, some []) := by
  decide

/-! Repeated calls of `str_chop_skip_empty` -/

theorem skip_empty_loop_fuel (d : Char) (h : [d] ≠ []) (f1 f2 : Nat) (cur : Option CStr)
    (h1 : cursor_length cur + 2 ≤ f1) (h2 : cursor_length cur + 2 ≤ f2) :
    str_chop_skip_empty_loop [d] h f1 cur = str_chop_skip_empty_loop [d] h f2 cur := by
  induction f1 generalizing f2 cur with
  | zero => omega
  | succ k1 ih =>
    obtain ⟨k2, rfl⟩ : ∃ k2, f2 = k2 + 1 := ⟨f2 - 1, by omega⟩
    cases cur with
    | none => rw [skip_empty_loop_none, skip_empty_loop_none]
    | some s =>
      simp only [cursor_length] at h1 h2
      simp only [str_chop_skip_empty_loop, str_chop_single]
      by_cases hne : (split_first d s).1 = []
      · rw [if_neg (not_not.mpr hne), if_neg (not_not.mpr hne)]
        cases htl : (split_first d s).2 with
        | none =>
          obtain ⟨j1, rfl⟩ : ∃ j, k1 = j + 1 := ⟨k1 - 1, by omega⟩
          obtain ⟨j2, rfl⟩ : ∃ j, k2 = j + 1 := ⟨k2 - 1, by omega⟩
          rw [skip_empty_loop_none, skip_empty_loop_none]
        | some r =>
          have hlen := split_first_length d s r htl
          exact ih k2 (some r) (by simp only [cursor_length]; omega)
            (by simp only [cursor_length]; omega)
      · rw [if_pos hne, if_pos hne]

theorem pieces_ne_nil (d : Char) (s t : CStr) (ht : t ∈ pieces d s) : t ≠ [] := by
  unfold pieces at ht
  have := (List.mem_filter.mp ht).2
  simpa using this

theorem str_chop_skip_empty_ne_nil (d : Char) (h : [d] ≠ []) (cur : Option CStr) (tok : CStr)
    (ht : (str_chop_skip_empty cur [d] h).1 = some tok) : tok ≠ [] := by
  obtain ⟨h1, _, _, _⟩ := str_chop_skip_empty_spec d h cur
  rw [ht] at h1
  cases cur with
  | none => simp [cursor_pieces] at h1
  | some s =>
    have hm : tok ∈ pieces d s := by
      simp only [cursor_pieces] at h1
      exact List.mem_of_mem_head? h1.symm
    exact pieces_ne_nil d s tok hm

theorem chop_all_spec (d : Char) (h : [d] ≠ []) (fuel : Nat) (cur : Option CStr)
    (hf : cursor_length cur + 1 ≤ fuel) :
    chop_all [d] h fuel cur = (cursor_pieces d cur, none) := by
  induction fuel generalizing cur with
  | zero => omega
  | succ fuel ih =>
    obtain ⟨h1, h2, h3, h4⟩ := str_chop_skip_empty_spec d h cur
    unfold chop_all
    generalize str_chop_skip_empty cur [d] h = r at h1 h2 h3 h4
    obtain ⟨tok, cur1⟩ := r
    simp only at h1 h2 h3 h4
    cases tok with
    | none =>
      have hc := h3 rfl
      subst hc
      cases hp : cursor_pieces d cur with
      | nil => rfl
      | cons t ts =>
        rw [hp] at h1
        simp at h1
    | some t =>
      have hlt := h4 (by simp)
      cases hp : cursor_pieces d cur with
      | nil =>
        rw [hp] at h1
        simp at h1
      | cons t1 ts =>
        rw [hp] at h1 h2
        simp only [List.head?_cons, Option.some.injEq, List.tail_cons] at h1 h2
        subst h1
        simp only [ih cur1 (by omega), h2]

/-- C17: for every text and every one-character delimiter `d`, repeated calls
of `str_chop_skip_empty` on the same cursor come to an end and yield, in order,
exactly the non-empty pieces obtained by splitting the text at every `d`; the
cursor is then exhausted and every later call yields nothing; no call yields an
empty token; and the loop inside a call never runs into its bound. -/
theorem str_chop_skip_empty_all (d : Char) (h : [d] ≠ []) (text : CStr) :
    (∀ fuel, text.length + 1 ≤ fuel →
      chop_all [d] h fuel (some text) = (pieces d text, none)) ∧
    str_chop_skip_empty none [d] h = (none, none) ∧
    (∀ cur tok, (str_chop_skip_empty cur [d] h).1 = some tok → tok ≠ []) ∧
    (∀ cur fuel, cursor_length cur + 2 ≤ fuel →
      str_chop_skip_empty_loop [d] h fuel cur = str_chop_skip_empty cur [d] h) := by
  refine ⟨?_, ?_, ?_, ?_⟩
  · intro fuel hf
    exact chop_all_spec d h fuel (some text) hf
  · exact skip_empty_loop_none [d] h _
  · intro cur tok ht
    exact str_chop_skip_empty_ne_nil d h cur tok ht
  · intro cur fuel hf
    exact skip_empty_loop_fuel d h fuel _ cur hf (le_refl _)

theorem str_chop_skip_empty_all_witness :
    delim_space ≠ [] ∧
    ((∀ fuel, "a  b ".toList.length + 1 ≤ fuel →
      chop_all [' '] (by decide) fuel (some "a  b ".toList) =
        (pieces ' ' "a  b ".toList, none)) ∧
    str_chop_skip_empty none [' '] (by decide) = (none, none) ∧
    (∀ cur tok, (str_chop_skip_empty cur [' '] (by decide)).1 = some tok → tok ≠ []) ∧
    (∀ cur fuel, cursor_length cur + 2 ≤ fuel →
      str_chop_skip_empty_loop [' '] (by decide) fuel cur =
        str_chop_skip_empty cur [' '] (by decide))) :=
  ⟨by decide, str_chop_skip_empty_all ' ' (by decide) "a  b ".toList⟩

/-! The fields the parser extracts from a line -/

theorem splitOnP_congr (p q : Char → Bool) (l : List Char) (h : ∀ c ∈ l, p c = q c) :
    l.splitOnP p = l.splitOnP q := by
  induction l with
  | nil => rfl
  | cons c cs ih =>
    rw [List.splitOnP_cons, List.splitOnP_cons, ih (fun x hx => h x (List.mem_cons_of_mem _ hx)),
      h c (List.mem_cons_self _ _)]

theorem splitOnP_no_sep (p : Char → Bool) (l : List Char) :
    ∀ t ∈ l.splitOnP p, ∀ c ∈ t, p c = false := by
  induction l with
  | nil => simp
  | cons x xs ih =>
    rw [List.splitOnP_cons]
    by_cases hx : p x = true
    · rw [if_pos hx]
      intro t ht c hc
      rcases List.mem_cons.mp ht with ht | ht
      · subst ht
        simp at hc
      · exact ih t ht c hc
    · rw [if_neg hx]
      cases hs : xs.splitOnP p with
      | nil => simp [List.modifyHead]
      | cons t0 ts =>
        rw [hs] at ih
        intro t ht c hc
        simp only [List.modifyHead] at ht
        rcases List.mem_cons.mp ht with ht | ht
        · subst ht
          rcases List.mem_cons.mp hc with hc | hc
          · subst hc
            simpa using hx
          · exact ih t0 (List.mem_cons_self _ _) c hc
        · exact ih t (List.mem_cons_of_mem _ ht) c hc

theorem fields_no_space (line t : CStr) (ht : t ∈ fields line) : t ≠ [] ∧ ' ' ∉ t := by
  refine ⟨pieces_ne_nil ' ' line t ht, ?_⟩
  intro hmem
  have h1 : t ∈ line.splitOnP (fun c => c == ' ') := (List.mem_filter.mp ht).1
  have := splitOnP_no_sep _ line t h1 ' ' hmem
  simp at this

theorem fields_eq_spec_fields (line : CStr)
    (h : ∀ c ∈ line, is_whitespace c = true → c = ' ') :
    fields line = spec_fields line := by
  unfold fields pieces spec_fields
  rw [splitOnP_congr (fun c => c == ' ') is_whitespace line]
  intro c hc
  by_cases hw : is_whitespace c = true
  · rw [hw, h c hc hw]
    rfl
  · have hne : c ≠ ' ' := by
      intro he
      apply hw
      rw [he]
      rfl
    simp only [Bool.not_eq_true] at hw
    rw [hw]
    simpa using hne

theorem splitOnP_covers (p : Char → Bool) (l : List Char) :
    ∀ c ∈ l, p c = false → ∃ t ∈ l.splitOnP p, c ∈ t := by
  induction l with
  | nil => simp
  | cons x xs ih =>
    intro c hc hp
    rw [List.splitOnP_cons]
    by_cases hx : p x = true
    · rw [if_pos hx]
      rcases List.mem_cons.mp hc with hcx | hcx
      · rw [hcx, hx] at hp
        cases hp
      · obtain ⟨t, ht, hct⟩ := ih c hcx hp
        exact ⟨t, List.mem_cons_of_mem _ ht, hct⟩
    · rw [if_neg hx]
      cases hs : xs.splitOnP p with
      | nil => exact absurd hs (List.splitOnP_ne_nil p xs)
      | cons t0 ts =>
        rw [hs] at ih
        simp only [List.modifyHead]
        rcases List.mem_cons.mp hc with hcx | hcx
        · exact ⟨x :: t0, List.mem_cons_self _ _, by rw [hcx]; exact List.mem_cons_self _ _⟩
        · obtain ⟨t, ht, hct⟩ := ih c hcx hp
          rcases List.mem_cons.mp ht with ht0 | ht0
          · exact ⟨x :: t0, List.mem_cons_self _ _, by
              rw [← ht0]; exact List.mem_cons_of_mem _ hct⟩
          · exact ⟨t, List.mem_cons_of_mem _ ht0, hct⟩

theorem spec_fields_of_fields_eq (line : CStr) (h : fields line = spec_fields line) :
    ∀ c ∈ line, is_whitespace c = true → c = ' ' := by
  intro c hc hw
  by_contra hne
  have hp : (fun c => c == ' ') c = false := by simpa using hne
  obtain ⟨t, ht, hct⟩ := splitOnP_covers (fun c => c == ' ') line c hc hp
  have htne : t ≠ [] := List.ne_nil_of_mem hct
  have hmem : t ∈ fields line := by
    unfold fields pieces
    exact List.mem_filter.mpr ⟨ht, by simpa using htne⟩
  rw [h] at hmem
  have h2 : t ∈ line.splitOnP is_whitespace := (List.mem_filter.mp hmem).1
  have := splitOnP_no_sep is_whitespace line t h2 c hct
  rw [hw] at this
  cases this

set_option maxRecDepth 100000 in
/-- C15, counterexample: from the line `v 1 2 3` with its line terminator the
parser extracts the fields `v`, `1`, `2` and `3` followed by the newline, not
the runs `v`, `1`, `2`, `3` of non-whitespace characters; a tab does not
separate fields; and white space after the last field is a further field. -/
theorem parser_fields_not_whitespace_runs :
    ((chop_all delim_space (by decide) 9 (some "v 1 2 3\n".toList)).1 =
        ["v".toList, "1".toList, "2".toList, "3\n".toList] ∧
      spec_fields "v 1 2 3\n".toList = ["v".toList, "1".toList, "2".toList, "3".toList]) ∧
    ((chop_all delim_space (by decide) 9 (some "f\t1 2 3".toList)).1 =
        ["f\t1".toList, "2".toList, "3".toList] ∧
      spec_fields "f\t1 2 3".toList = ["f".toList, "1".toList, "2".toList, "3".toList]) ∧
    ((chop_all delim_space (by decide) 9 (some "f 1 2 \n".toList)).1 =
        ["f".toList, "1".toList, "2".toList, "\n".toList] ∧
      spec_fields "f 1 2 \n".toList = ["f".toList, "1".toList, "2".toList]) := by
  decide

/-- C15, amended: for every line in the line buffer, the instruction keyword
and the fields the parser extracts are exactly the maximal runs of characters
other than the space character, in order (each is non-empty and holds no
space), and the effect of the line is a function of these fields; they are the
maximal runs of non-whitespace characters exactly when the line holds no tab,
carriage return or newline. -/
theorem parser_fields (line : CStr) :
    (∀ fuel, line.length + 1 ≤ fuel →
      chop_all delim_space (by decide) fuel (some line) = (fields line, none)) ∧
    (∀ t ∈ fields line, t ≠ [] ∧ ' ' ∉ t) ∧
    (∀ (α : Type) [Zero α] (atof : CStr → α) (atoi : CStr → Int) (m : model α),
      process_line atof atoi m line = line_effect atof atoi m (fields line)) ∧
    ((∀ c ∈ line, is_whitespace c = true → c = ' ') ↔ fields line = spec_fields line) := by
  refine ⟨?_, fields_no_space line, ?_, fields_eq_spec_fields line,
    spec_fields_of_fields_eq line⟩
  · intro fuel hf
    exact chop_all_spec ' ' (by decide) fuel (some line) hf
  · intro α _ atof atoi m
    exact process_line_eq atof atoi m line

/-! The value read from a field -/

theorem split_first_not_mem (d : Char) (a : CStr) (h : d ∉ a) :
    split_first d a = (a, none) := by
  induction a with
  | nil => rfl
  | cons c cs ih =>
    have hc : c ≠ d := fun he => h (by rw [he]; exact List.mem_cons_self _ _)
    have hcs : d ∉ cs := fun hm => h (List.mem_cons_of_mem _ hm)
    simp [split_first, hc, ih hcs]

theorem split_first_append (d : Char) (a r : CStr) (h : d ∉ a) :
    split_first d (a ++ d :: r) = (a, some r) := by
  induction a with
  | nil => simp [split_first]
  | cons c cs ih =>
    have hc : c ≠ d := fun he => h (by rw [he]; exact List.mem_cons_self _ _)
    have hcs : d ∉ cs := fun hm => h (List.mem_cons_of_mem _ hm)
    simp [split_first, hc, ih hcs]

theorem before_slash_field (a more : CStr) (h : '/' ∉ a)
    (hmore : more = [] ∨ more.head? = some '/') : before_slash (a ++ more) = a := by
  unfold before_slash
  rcases hmore with hm | hm
  · rw [hm, List.append_nil, split_first_not_mem '/' a h]
  · cases more with
    | nil => simp at hm
    | cons c r =>
      simp only [List.head?_cons, Option.some.injEq] at hm
      rw [hm, split_first_append '/' a r h]

theorem parse_int_none_iff (atoi : CStr → Int) (cur : Option CStr) :
    (parse_int atoi cur).1 = none ↔ cursor_pieces ' ' cur = [] := by
  obtain ⟨h1, _, _⟩ := parse_int_spec atoi cur
  rw [h1]
  cases cursor_pieces ' ' cur <;> simp

theorem parse_float_none_iff {α : Type} (atof : CStr → α) (cur : Option CStr) :
    (parse_float atof cur).1 = none ↔ cursor_pieces ' ' cur = [] := by
  obtain ⟨h1, _, _⟩ := parse_float_spec atof cur
  rw [h1]
  cases cursor_pieces ' ' cur <;> simp

theorem digitChar_spec (m : Nat) (hm : m < 10) :
    (Nat.digitChar m).isDigit = true ∧ (Nat.digitChar m).toNat - 48 = m ∧
    libc_isspace (Nat.digitChar m) = false ∧ Nat.digitChar m ≠ '-' ∧
    Nat.digitChar m ≠ '+' := by
  interval_cases m <;> decide

theorem digits_value_toDigitsCore (fuel n : Nat) (ds : CStr) (hn : n < fuel) :
    ∃ k, ∀ acc, digits_value acc (Nat.toDigitsCore 10 fuel n ds) =
      digits_value (acc * 10 ^ k + n) ds := by
  induction fuel generalizing n ds with
  | zero => omega
  | succ fuel ih =>
    obtain ⟨d1, d2, _⟩ := digitChar_spec (n % 10) (Nat.mod_lt _ (by norm_num))
    unfold Nat.toDigitsCore
    by_cases h0 : n / 10 = 0
    · simp only [h0, if_true]
      refine ⟨1, fun acc => ?_⟩
      have hlt : n < 10 := by omega
      simp only [digits_value, d1, if_true, d2, pow_one]
      rw [Nat.mod_eq_of_lt hlt]
    · simp only [h0, if_false]
      obtain ⟨k, hk⟩ := ih (n / 10) (Nat.digitChar (n % 10) :: ds) (by omega)
      refine ⟨k + 1, fun acc => ?_⟩
      rw [hk]
      simp only [digits_value, d1, if_true, d2]
      congr 1
      have := Nat.div_add_mod n 10
      rw [pow_succ]
      nlinarith [this]

theorem toDigitsCore_head (fuel n : Nat) (ds : CStr) (hn : n < fuel) :
    ∃ m cs, m < 10 ∧ Nat.toDigitsCore 10 fuel n ds = Nat.digitChar m :: cs := by
  induction fuel generalizing n ds with
  | zero => omega
  | succ fuel ih =>
    unfold Nat.toDigitsCore
    by_cases h0 : n / 10 = 0
    · simp only [h0, if_true]
      exact ⟨n % 10, ds, Nat.mod_lt _ (by norm_num), rfl⟩
    · simp only [h0, if_false]
      exact ih (n / 10) _ (by omega)

theorem digits_value_stop (acc : Nat) (rest : CStr)
    (hrest : ∀ c, rest.head? = some c → c.isDigit = false) :
    digits_value acc rest = acc := by
  cases rest with
  | nil => rfl
  | cons c cs =>
    have := hrest c rfl
    simp [digits_value, this]

theorem toDigitsCore_append (fuel n : Nat) (ds rest : CStr) :
    Nat.toDigitsCore 10 fuel n (ds ++ rest) = Nat.toDigitsCore 10 fuel n ds ++ rest := by
  induction fuel generalizing n ds with
  | zero => rfl
  | succ fuel ih =>
    unfold Nat.toDigitsCore
    by_cases h0 : n / 10 = 0
    · simp only [h0, if_true, List.cons_append]
    · simp only [h0, if_false]
      rw [← List.cons_append, ih]

theorem digits_value_toDigits (n : Nat) (rest : CStr)
    (hrest : ∀ c, rest.head? = some c → c.isDigit = false) :
    digits_value 0 (Nat.toDigits 10 n ++ rest) = n ∧
    ∃ m cs, m < 10 ∧ Nat.toDigits 10 n ++ rest = Nat.digitChar m :: cs := by
  have e : Nat.toDigits 10 n ++ rest = Nat.toDigitsCore 10 (n + 1) n rest := by
    unfold Nat.toDigits
    rw [← toDigitsCore_append, List.nil_append]
  rw [e]
  refine ⟨?_, toDigitsCore_head (n + 1) n rest (by omega)⟩
  obtain ⟨k, hk⟩ := digits_value_toDigitsCore (n + 1) n rest (by omega)
  rw [hk 0, digits_value_stop _ rest hrest]
  simp

theorem libc_strtol_digit_head (c : Char) (cs : CStr) (hsp : libc_isspace c = false)
    (hm : c ≠ '-') (hp : c ≠ '+') :
    libc_strtol (c :: cs) = min ((2 : Int) ^ 63 - 1) (digits_value 0 (c :: cs) : Int) := by
  unfold libc_strtol
  simp only [List.dropWhile, hsp]
  split
  · rename_i heq
    simp only [List.cons.injEq] at heq
    exact absurd heq.1 hm
  · rename_i heq
    simp only [List.cons.injEq] at heq
    exact absurd heq.1 hp
  · rfl

theorem libc_strtol_minus (r : CStr) :
    libc_strtol ('-' :: r) = max (-(2 : Int) ^ 63) (-(digits_value 0 r : Int)) := by
  unfold libc_strtol
  have h : libc_isspace '-' = false := by decide
  simp only [List.dropWhile, h]

theorem libc_atoi_int_text (a : Int) (h1 : -(2 : Int) ^ 31 ≤ a) (h2 : a < (2 : Int) ^ 31)
    (rest : CStr) (hrest : ∀ c, rest.head? = some c → c.isDigit = false) :
    libc_atoi (int_text a ++ rest) = a := by
  unfold libc_atoi int_text
  by_cases hneg : a < 0
  · simp only [hneg, if_true, List.cons_append]
    obtain ⟨hv, _⟩ := digits_value_toDigits a.natAbs rest hrest
    rw [libc_strtol_minus, hv]
    omega
  · simp only [hneg, if_false]
    obtain ⟨hv, m, cs, hm, htxt⟩ := digits_value_toDigits a.toNat rest hrest
    obtain ⟨_, _, d3, d4, d5⟩ := digitChar_spec m hm
    rw [htxt, libc_strtol_digit_head _ cs d3 d4 d5, ← htxt, hv]
    omega

theorem split_first_append_left (d : Char) (x y : CStr) (h : d ∉ x) :
    split_first d (x ++ y) = (x ++ (split_first d y).1, (split_first d y).2) := by
  induction x with
  | nil => simp
  | cons c cs ih =>
    have hc : c ≠ d := fun he => h (by rw [he]; exact List.mem_cons_self _ _)
    have hcs : d ∉ cs := fun hm => h (List.mem_cons_of_mem _ hm)
    simp [split_first, hc, ih hcs]

theorem toDigitsCore_mem (fuel n : Nat) (ds : CStr) (c : Char)
    (hc : c ∈ Nat.toDigitsCore 10 fuel n ds) : c ∈ ds ∨ c.isDigit = true := by
  induction fuel generalizing n ds with
  | zero => exact Or.inl hc
  | succ fuel ih =>
    obtain ⟨d1, _⟩ := digitChar_spec (n % 10) (Nat.mod_lt _ (by norm_num))
    unfold Nat.toDigitsCore at hc
    by_cases h0 : n / 10 = 0
    · simp only [h0, if_true, List.mem_cons] at hc
      rcases hc with hc | hc
      · right
        rw [hc]
        exact d1
      · exact Or.inl hc
    · simp only [h0, if_false] at hc
      rcases ih _ _ hc with h | h
      · rcases List.mem_cons.mp h with h | h
        · right
          rw [h]
          exact d1
        · exact Or.inl h
      · exact Or.inr h

theorem slash_not_mem_int_text (z : Int) : '/' ∉ int_text z := by
  have key : ∀ n, '/' ∉ Nat.toDigits 10 n := by
    intro n hmem
    rcases toDigitsCore_mem _ _ _ _ hmem with h | h
    · simp at h
    · revert h
      decide
  unfold int_text
  by_cases hneg : z < 0
  · simp only [hneg, if_true, List.mem_cons]
    rintro (h | h)
    · revert h
      decide
    · exact key _ h
  · simp only [hneg, if_false]
    exact key _

theorem split_first_head (d : Char) (y : CStr) (c : Char)
    (h : (split_first d y).1.head? = some c) : y.head? = some c := by
  cases y with
  | nil => simp [split_first] at h
  | cons x xs =>
    by_cases hx : x = d
    · simp [split_first, hx] at h
    · simpa [split_first, hx] using h

theorem libc_atoi_before_slash (z : Int) (h1 : -(2 : Int) ^ 31 ≤ z) (h2 : z < (2 : Int) ^ 31)
    (more : CStr) (hmore : ∀ c, more.head? = some c → c.isDigit = false) :
    libc_atoi (before_slash (int_text z ++ more)) = z := by
  unfold before_slash
  rw [split_first_append_left '/' _ more (slash_not_mem_int_text z)]
  apply libc_atoi_int_text z h1 h2
  intro c hc
  exact hmore c (split_first_head '/' more c hc)

set_option maxRecDepth 100000 in
/-- C14, counterexample: when only the line terminator is left on the line, so
that no token remains, `parse_int` and `parse_float` still succeed, with the
value 0; and on the field `4294967297` `parse_int` yields 1. -/
theorem parse_int_on_line_terminator :
    spec_fields "\n".toList = [] ∧
    parse_int libc_atoi (some "\n".toList) = (some 0, none) ∧
    parse_float atof_integer (some "\n".toList) = (some 0, none) ∧
    parse_int libc_atoi (some "4294967297".toList) = (some 1, none) := by
  decide

set_option maxRecDepth 100000 in
/-- C14, amended: for every field that begins with the decimal text of an
integer `z` in the range of `int` and goes on with nothing or with a character
that is not a digit (as in `z`, `z/t`, `z//n`, `z/t/n`), `parse_int` yields
`z`: it converts the part of the field before the first `/`, for any
conversion function; so `f 1/1/1 2/2/2 3/3/3` stores the same face as
`f 1 2 3`.  `parse_int` and `parse_float` report failure if and only if no
non-empty piece is left when the rest of the line is split at the space
character. -/
theorem parse_int_field (z : Int) (h1 : -(2 : Int) ^ 31 ≤ z) (h2 : z < (2 : Int) ^ 31)
    (more : CStr) (hmore : ∀ c, more.head? = some c → c.isDigit = false)
    (cur : Option CStr) (ts : List CStr)
    (hcur : cursor_pieces ' ' cur = (int_text z ++ more) :: ts) :
    (parse_int libc_atoi cur).1 = some z ∧
    (∀ atoi : CStr → Int,
      (parse_int atoi cur).1 = some (atoi (before_slash (int_text z ++ more)))) ∧
    (∀ a rest : CStr, '/' ∉ a → before_slash (a ++ '/' :: rest) = a ∧ before_slash a = a) ∧
    (∀ (atoi : CStr → Int) (c : Option CStr),
      (parse_int atoi c).1 = none ↔ cursor_pieces ' ' c = []) ∧
    (∀ (atof : CStr → Int) (c : Option CStr),
      (parse_float atof c).1 = none ↔ cursor_pieces ' ' c = []) ∧
    ((process_line atof_integer libc_atoi four_vertex_mesh "f 1/1/1 2/2/2 3/3/3\n".toList).1 =
        (process_line atof_integer libc_atoi four_vertex_mesh "f 1 2 3\n".toList).1 ∧
      (process_line atof_integer libc_atoi four_vertex_mesh
        "f 1/1/1 2/2/2 3/3/3\n".toList).1.map model.faces = some [(0, 1, 2)]) := by
  have hgen : ∀ atoi : CStr → Int,
      (parse_int atoi cur).1 = some (atoi (before_slash (int_text z ++ more))) := by
    intro atoi
    obtain ⟨p1, _, _⟩ := parse_int_spec atoi cur
    rw [p1, hcur]
    rfl
  refine ⟨?_, hgen, ?_, parse_int_none_iff, parse_float_none_iff, by decide, by decide⟩
  · rw [hgen libc_atoi, libc_atoi_before_slash z h1 h2 more hmore]
  · intro a rest ha
    exact ⟨before_slash_field a ('/' :: rest) ha (Or.inr rfl),
      by simpa using before_slash_field a [] ha (Or.inl rfl)⟩

theorem sample_subfields_head (c : Char) (h : sample_subfields.head? = some c) :
    c.isDigit = false := by
  have hc : c = '/' := by
    simp only [sample_subfields, String.toList, List.head?_cons, Option.some.injEq] at h
    exact h.symm
  rw [hc]
  decide

set_option maxRecDepth 100000 in
theorem parse_int_field_witness :
    (-(2 : Int) ^ 31 ≤ -2 ∧ (-2 : Int) < (2 : Int) ^ 31 ∧
      (∀ c, sample_subfields.head? = some c → c.isDigit = false) ∧
      cursor_pieces ' ' sample_cursor = (int_text (-2) ++ sample_subfields) :: ["9".toList]) ∧
    ((parse_int libc_atoi sample_cursor).1 = some (-2) ∧
    (∀ atoi : CStr → Int, (parse_int atoi sample_cursor).1 =
      some (atoi (before_slash (int_text (-2) ++ sample_subfields)))) ∧
    (∀ a rest : CStr, '/' ∉ a → before_slash (a ++ '/' :: rest) = a ∧ before_slash a = a) ∧
    (∀ (atoi : CStr → Int) (c : Option CStr),
      (parse_int atoi c).1 = none ↔ cursor_pieces ' ' c = []) ∧
    (∀ (atof : CStr → Int) (c : Option CStr),
      (parse_float atof c).1 = none ↔ cursor_pieces ' ' c = []) ∧
    ((process_line atof_integer libc_atoi four_vertex_mesh "f 1/1/1 2/2/2 3/3/3\n".toList).1 =
        (process_line atof_integer libc_atoi four_vertex_mesh "f 1 2 3\n".toList).1 ∧
      (process_line atof_integer libc_atoi four_vertex_mesh
        "f 1/1/1 2/2/2 3/3/3\n".toList).1.map model.faces = some [(0, 1, 2)])) :=
  ⟨⟨by decide, by decide, sample_subfields_head, by decide⟩,
    parse_int_field (-2) (by decide) (by decide) sample_subfields sample_subfields_head
      sample_cursor ["9".toList] (by decide)⟩

/-! Growth of the stores over a sequence of calls -/

theorem model_add_vertex_capacity {α : Type} [Zero α] (m : model α) (v : vec3 α) :
    (model_add_vertex m v).vertex_capacity =
      (if m.vertex_count = m.vertex_capacity then m.vertex_capacity * 2
        else m.vertex_capacity) ∧
    (model_add_vertex m v).faces_capacity = m.faces_capacity ∧
    (model_add_vertex m v).faces_count = m.faces_count ∧
    (model_add_vertex m v).vertex_count = m.vertex_count + 1 := by
  unfold model_add_vertex
  by_cases h : m.vertex_count = m.vertex_capacity
  · dsimp only
    rw [if_pos h, if_pos h]
    exact ⟨rfl, rfl, rfl, rfl⟩
  · dsimp only
    rw [if_neg h, if_neg h]
    exact ⟨rfl, rfl, rfl, rfl⟩

theorem model_add_face_capacity {α : Type} (m : model α) (a b c : Int) :
    (model_add_face m a b c).1.faces_capacity =
      (if m.faces_count = m.faces_capacity then m.faces_capacity * 2
        else m.faces_capacity) ∧
    (model_add_face m a b c).1.vertex_capacity = m.vertex_capacity ∧
    (model_add_face m a b c).1.vertex_count = m.vertex_count ∧
    (model_add_face m a b c).1.faces_count = m.faces_count + 1 := by
  unfold model_add_face
  by_cases h : m.faces_count = m.faces_capacity
  · dsimp only
    rw [if_pos h, if_pos h]
    exact ⟨rfl, rfl, rfl, rfl⟩
  · dsimp only
    rw [if_neg h, if_neg h]
    exact ⟨rfl, rfl, rfl, rfl⟩

theorem apply_op_invariant {α : Type} [Zero α] (m : model α) (op : store_op α)
    (hwf : m.well_formed) (hv : ∃ k, m.vertex_capacity = 2 ^ k)
    (hf : ∃ k, m.faces_capacity = 2 ^ k) :
    (apply_op m op).well_formed ∧ (∃ k, (apply_op m op).vertex_capacity = 2 ^ k) ∧
    (∃ k, (apply_op m op).faces_capacity = 2 ^ k) := by
  obtain ⟨kv, hkv⟩ := hv
  obtain ⟨kf, hkf⟩ := hf
  cases op with
  | add_vertex v =>
    obtain ⟨c1, c2, _, _⟩ := model_add_vertex_capacity m v
    refine ⟨(model_add_vertex_spec m v hwf).1, ?_, ⟨kf, by simp only [apply_op]; rw [c2, hkf]⟩⟩
    simp only [apply_op]
    rw [c1]
    split_ifs
    · exact ⟨kv + 1, by rw [hkv, pow_succ]⟩
    · exact ⟨kv, hkv⟩
  | add_face a b c =>
    obtain ⟨c1, c2, _, _⟩ := model_add_face_capacity m a b c
    refine ⟨(model_add_face_spec m a b c hwf).1, ⟨kv, by simp only [apply_op]; rw [c2, hkv]⟩, ?_⟩
    simp only [apply_op]
    rw [c1]
    split_ifs
    · exact ⟨kf + 1, by rw [hkf, pow_succ]⟩
    · exact ⟨kf, hkf⟩

theorem run_ops_invariant {α : Type} [Zero α] (ops : List (store_op α)) (m : model α)
    (hwf : m.well_formed) (hv : ∃ k, m.vertex_capacity = 2 ^ k)
    (hf : ∃ k, m.faces_capacity = 2 ^ k) :
    (run_ops m ops).well_formed ∧ (∃ k, (run_ops m ops).vertex_capacity = 2 ^ k) ∧
    (∃ k, (run_ops m ops).faces_capacity = 2 ^ k) := by
  induction ops generalizing m with
  | nil => exact ⟨hwf, hv, hf⟩
  | cons op more ih =>
    obtain ⟨a1, a2, a3⟩ := apply_op_invariant m op hwf hv hf
    exact ih (apply_op m op) a1 a2 a3

/-- C18: after every finite sequence of `model_add_vertex` and `model_add_face`
calls on the mesh made by `model_init` (both counts 0, both capacities 1), the
counts are within the capacities, each capacity is a power of two and each
store has as many cells as its capacity says; a further call of either function
raises its own count by exactly 1, leaves the other count and capacity
unchanged, doubles its own capacity exactly when its count equals it, and
writes at indices below the capacity it leaves. -/
theorem store_growth_invariant {α : Type} [Zero α] (ops : List (store_op α)) :
    ((model_init : model α).vertex_count = 0 ∧ (model_init : model α).faces_count = 0 ∧
      (model_init : model α).vertex_capacity = 1 ∧ (model_init : model α).faces_capacity = 1) ∧
    ((run_ops model_init ops).vertex_count ≤ (run_ops model_init ops).vertex_capacity ∧
      (run_ops model_init ops).faces_count ≤ (run_ops model_init ops).faces_capacity ∧
      (∃ k, (run_ops model_init ops).vertex_capacity = 2 ^ k) ∧
      (∃ k, (run_ops model_init ops).faces_capacity = 2 ^ k) ∧
      (run_ops model_init ops).vertexes.length = (run_ops model_init ops).vertex_capacity ∧
      (run_ops model_init ops).idxs.length = 3 * (run_ops model_init ops).faces_capacity) ∧
    (∀ (m : model α) (v : vec3 α), m = run_ops model_init ops →
      (model_add_vertex m v).vertex_count = m.vertex_count + 1 ∧
      (model_add_vertex m v).faces_count = m.faces_count ∧
      (model_add_vertex m v).faces_capacity = m.faces_capacity ∧
      (model_add_vertex m v).vertex_capacity =
        (if m.vertex_count = m.vertex_capacity then m.vertex_capacity * 2
          else m.vertex_capacity) ∧
      m.vertex_count < (model_add_vertex m v).vertex_capacity ∧
      (model_add_vertex m v).vertexes.length = (model_add_vertex m v).vertex_capacity) ∧
    (∀ (m : model α) (a b c : Int), m = run_ops model_init ops →
      (model_add_face m a b c).1.faces_count = m.faces_count + 1 ∧
      (model_add_face m a b c).1.vertex_count = m.vertex_count ∧
      (model_add_face m a b c).1.vertex_capacity = m.vertex_capacity ∧
      (model_add_face m a b c).1.faces_capacity =
        (if m.faces_count = m.faces_capacity then m.faces_capacity * 2
          else m.faces_capacity) ∧
      3 * m.faces_count + 2 < 3 * (model_add_face m a b c).1.faces_capacity ∧
      (model_add_face m a b c).1.idxs.length = 3 * (model_add_face m a b c).1.faces_capacity) := by
  obtain ⟨hwf, hv, hf⟩ := run_ops_invariant ops (model_init : model α) model_init_well_formed
    ⟨0, rfl⟩ ⟨0, rfl⟩
  refine ⟨⟨rfl, rfl, rfl, rfl⟩, ⟨hwf.vertex_le, hwf.faces_le, hv, hf, hwf.vertex_store,
    hwf.faces_store⟩, ?_, ?_⟩
  · intro m v hm
    subst hm
    obtain ⟨c1, c2, c3, c4⟩ := model_add_vertex_capacity (run_ops model_init ops) v
    have hwf1 := (model_add_vertex_spec (run_ops model_init ops) v hwf).1
    refine ⟨c4, c3, c2, c1, ?_, hwf1.vertex_store⟩
    have := hwf1.vertex_le
    rw [c4] at this
    omega
  · intro m a b c hm
    subst hm
    obtain ⟨c1, c2, c3, c4⟩ := model_add_face_capacity (run_ops model_init ops) a b c
    have hwf1 := (model_add_face_spec (run_ops model_init ops) a b c hwf).1
    refine ⟨c4, c3, c2, c1, ?_, hwf1.faces_store⟩
    have := hwf1.faces_le
    rw [c4] at this
    omega

/-! Stored indices are never negative -/

theorem relativize_idx_path_ne_fall_through (i n : Int) :
    relativize_idx_path i n ≠ relativize_path.fall_through := by
  unfold relativize_idx_path
  split_ifs <;> simp
  omega

theorem loaded_indices_repaired {α : Type} [Zero α] (atof : CStr → α) (atoi : CStr → Int)
    (content : List Char) (m : model α)
    (h : (model_load_from_obj atof atoi model_init (some content)).1 = some m) :
    ∀ i ∈ m.indices, ∃ y, 0 ≤ y ∧ i = repair_index m.vertex_count y := by
  obtain ⟨m0, h0, hm⟩ := model_load_from_obj_some atof atoi content m h
  obtain ⟨w1, _, w3⟩ := load_loop_spec atof atoi (file_lines content) model_init m0
    model_init_well_formed h0
  have hnn : ∀ x ∈ m0.indices, 0 ≤ x := w3 (by
    intro x hx
    simp [model.indices, model_init] at hx)
  obtain ⟨v1, v2⟩ := validated_indices m0 w1
  rw [← hm] at v1 v2
  intro i hi
  rw [v1] at hi
  obtain ⟨y, hy, rfl⟩ := List.mem_map.mp hi
  exact ⟨y, hnn y hy, by rw [v2]⟩

/-- Function `relativize_idx` never yields a negative index: for every integer
`i` and every `n >= 0` control leaves it through one of its three `return`
statements, never through the end of the body, the result is at least 0, and it
is below `n` whenever `-n <= i <= -1`. -/
theorem relativize_idx_never_negative (i n : Int) (hn : 0 ≤ n) :
    (relativize_idx_path i n = relativize_path.invalid ∨
      relativize_idx_path i n = relativize_path.positive ∨
      relativize_idx_path i n = relativize_path.negative) ∧
    relativize_idx_path i n ≠ relativize_path.fall_through ∧
    0 ≤ (relativize_idx i n).1 ∧
    (-n ≤ i → i ≤ -1 → (relativize_idx i n).1 < n) := by
  have hft := relativize_idx_path_ne_fall_through i n
  refine ⟨?_, hft, ?_, ?_⟩
  · cases hp : relativize_idx_path i n with
    | invalid => exact Or.inl rfl
    | positive => exact Or.inr (Or.inl rfl)
    | negative => exact Or.inr (Or.inr rfl)
    | fall_through => exact absurd hp hft
  · rcases lt_trichotomy i 0 with hi | hi | hi
    · by_cases hlow : i < -n
      · rw [relativize_idx_invalid i n (Or.inr hlow)]
      · rw [relativize_idx_negative i n hi (by omega)]
        show 0 ≤ n + i
        omega
    · rw [relativize_idx_invalid i n (Or.inl hi)]
    · rw [relativize_idx_positive i n hi hn]
      show 0 ≤ i - 1
      omega
  · intro h1 h2
    rw [relativize_idx_negative i n (by omega) h1]
    show n + i < n
    omega

/-- When the call of `model_init` yields the mesh it initialised, every face
index stored in a loaded mesh with at least one vertex lies in
[0, vertex_count). -/
theorem loaded_indices_in_range {α : Type} [Zero α] (atof : CStr → α) (atoi : CStr → Int)
    (content : List Char) (m : model α)
    (h : (model_load_from_obj atof atoi model_init (some content)).1 = some m)
    (hv : 1 ≤ m.vertex_count) :
    ∀ i ∈ m.indices, 0 ≤ i ∧ i < (m.vertex_count : Int) := by
  intro i hi
  obtain ⟨y, hy, rfl⟩ := loaded_indices_repaired atof atoi content m h i hi
  unfold repair_index
  split_ifs <;> omega

theorem resolve_negative (n : Nat) (k : Int) (hk1 : 1 ≤ k) (hk2 : k ≤ n) :
    resolve n (-k) = n - k := by
  unfold resolve
  rw [relativize_idx_negative (-k) n (by omega) (by omega)]
  show (n : Int) + -k = n - k
  omega

set_option maxRecDepth 1000000 in
/-- C11: for every `n >= 1` and every `k` with `1 <= k <= n`, the face index
`-k` given when `n` vertices are declared is stored as the same index as the
positive index `n + 1 - k`, namely `n - k`, so that `model_add_face` stores the
same face for three such negative indices as for their positive counterparts;
and `f -1 -2 -3` after three vertices loads into the same mesh as `f 3 2 1`,
with the face (2,1,0) (the files being loaded with the call of `model_init`
yielding the mesh it initialised). -/
theorem negative_index_counts_back (α : Type) (n : Nat) (k : Int) (hk1 : 1 ≤ k)
    (hk2 : k ≤ n) :
    (relativize_idx (-k) n).1 = (relativize_idx (n + 1 - k) n).1 ∧
    (relativize_idx (-k) n).1 = n - k ∧
    (∀ (m : model α) (k2 k3 : Int), m.well_formed → m.vertex_count = n →
      1 ≤ k2 → k2 ≤ n → 1 ≤ k3 → k3 ≤ n →
      (model_add_face m (-k) (-k2) (-k3)).1.faces =
        (model_add_face m (n + 1 - k) (n + 1 - k2) (n + 1 - k3)).1.faces) ∧
    ((model_load_from_obj atof_integer libc_atoi model_init (some negative_face_file)).1 =
        (model_load_from_obj atof_integer libc_atoi model_init (some positive_face_file)).1 ∧
      (model_load_from_obj atof_integer libc_atoi model_init (some negative_face_file)).1.map model.faces =
        some [(2, 1, 0)]) := by
  have key : ∀ j : Int, 1 ≤ j → j ≤ n → resolve n (-j) = resolve n (n + 1 - j) := by
    intro j h1 h2
    rw [resolve_negative n j h1 h2, resolve_positive n _ (by omega)]
    omega
  refine ⟨key k hk1 hk2, resolve_negative n k hk1 hk2, ?_, by decide, by decide⟩
  intro m k2 k3 hwf hm a1 a2 b1 b2
  rw [model_add_face_faces m _ _ _ hwf, model_add_face_faces m _ _ _ hwf, hm,
    key k hk1 hk2, key k2 a1 a2, key k3 b1 b2]

set_option maxRecDepth 1000000 in
theorem negative_index_counts_back_witness :
    ((1 : Int) ≤ 2 ∧ (2 : Int) ≤ (3 : Nat)) ∧
    ((relativize_idx (-2) (3 : Nat)).1 = (relativize_idx ((3 : Nat) + 1 - 2) (3 : Nat)).1 ∧
    (relativize_idx (-2) (3 : Nat)).1 = (3 : Nat) - 2 ∧
    (∀ (m : model Int) (k2 k3 : Int), m.well_formed → m.vertex_count = 3 →
      1 ≤ k2 → k2 ≤ (3 : Nat) → 1 ≤ k3 → k3 ≤ (3 : Nat) →
      (model_add_face m (-2) (-k2) (-k3)).1.faces =
        (model_add_face m ((3 : Nat) + 1 - 2) ((3 : Nat) + 1 - k2)
          ((3 : Nat) + 1 - k3)).1.faces) ∧
    ((model_load_from_obj atof_integer libc_atoi model_init (some negative_face_file)).1 =
        (model_load_from_obj atof_integer libc_atoi model_init (some positive_face_file)).1 ∧
      (model_load_from_obj atof_integer libc_atoi model_init (some negative_face_file)).1.map model.faces =
        some [(2, 1, 0)])) :=
  ⟨⟨by decide, by decide⟩, negative_index_counts_back Int 3 2 (by decide) (by decide)⟩

/-! The faces of the loaded mesh -/

theorem line_effect_faces {α : Type} [Zero α] (atof : CStr → α) (atoi : CStr → Int)
    (m m1 : model α) (toks : List CStr) (hwf : m.well_formed)
    (h : (line_effect atof atoi m toks).1 = some m1) :
    m1.faces = m.faces ++ line_faces atoi m.vertex_count toks ∧
    m1.vertex_count = (if toks.head? = some ['v'] then m.vertex_count + 1
      else m.vertex_count) := by
  cases toks with
  | nil =>
    simp only [line_effect, Option.some.injEq] at h
    subst h
    simp [line_faces]
  | cons instr args =>
    simp only [line_effect] at h
    by_cases hc : instr.head? = some '#'
    · have hv : instr ≠ ['v'] := by
        intro hv
        rw [hv] at hc
        simp at hc
      have hf : instr ≠ ['f'] := by
        intro hf
        rw [hf] at hc
        simp at hc
      simp only [hc, if_true, Option.some.injEq] at h
      subst h
      refine ⟨?_, by simp [hv]⟩
      match args with
      | [] => simp [line_faces]
      | [_] => simp [line_faces]
      | _ :: _ :: _ => simp [line_faces, hf]
    · simp only [hc, if_false] at h
      by_cases hv : instr = ['v']
      · have hf : instr ≠ ['f'] := by
          rw [hv]
          decide
        simp only [hv, if_true] at h
        match args, h with
        | [], h => simp at h
        | [_], h => simp at h
        | [_, _], h => simp at h
        | a :: b :: c :: rest, h =>
          simp only [Option.some.injEq] at h
          subst h
          obtain ⟨_, _, w3, w4, w5⟩ := model_add_vertex_spec m
            ⟨atof (before_slash a), atof (before_slash b), atof (before_slash c)⟩ hwf
          refine ⟨?_, by simp [hv, w3]⟩
          have hnf : line_faces atoi m.vertex_count (instr :: a :: b :: c :: rest) = [] := by
            simp [line_faces, hf]
          rw [hnf, List.append_nil]
          simp only [model.faces, w4]
      · simp only [hv, if_false] at h
        by_cases hface : instr = ['f']
        · simp only [hface, if_true] at h
          match args, h with
          | [], h => simp at h
          | [_], h => simp at h
          | a :: b :: rest, h =>
            simp only [Option.some.injEq] at h
            subst h
            obtain ⟨_, g2, _, g4, _, _⟩ := add_fan_spec (atoi (before_slash a))
              (rest.map (fun t => atoi (before_slash t))) (atoi (before_slash b)) m hwf
            refine ⟨?_, by simp [hv, g4]⟩
            rw [g2]
            simp [line_faces, hface]
        · simp only [hface, if_false, Option.some.injEq] at h
          subst h
          refine ⟨?_, by simp [hv]⟩
          match args with
          | [] => simp [line_faces]
          | [_] => simp [line_faces]
          | _ :: _ :: _ => simp [line_faces, hface]

theorem load_loop_faces {α : Type} [Zero α] (atof : CStr → α) (atoi : CStr → Int)
    (lines : List CStr) (m m1 : model α) (hwf : m.well_formed)
    (h : (load_loop atof atoi lines m).1 = some m1) :
    m1.faces = m.faces ++ lines_faces atoi m.vertex_count lines := by
  induction lines generalizing m with
  | nil =>
    simp only [load_loop, Option.some.injEq] at h
    subst h
    simp [lines_faces]
  | cons line more ih =>
    unfold load_loop at h
    have hp : ∀ m2, (process_line atof atoi m line).1 = some m2 → _ :=
      fun m2 h2 => line_effect_faces atof atoi m m2 (fields line) hwf
        (by rw [← process_line_eq]; exact h2)
    have hq : ∀ m2, (process_line atof atoi m line).1 = some m2 → m2.well_formed :=
      fun m2 h2 => (line_effect_spec atof atoi m m2 (fields line) hwf
        (by rw [← process_line_eq]; exact h2)).1
    generalize process_line atof atoi m line = r at h hp hq
    obtain ⟨res, e⟩ := r
    cases res with
    | none => simp at h
    | some m2 =>
      simp only at h
      obtain ⟨p1, p2⟩ := hp m2 rfl
      rw [ih m2 (hq m2 rfl) h, p1, p2, List.append_assoc]
      rfl

theorem triples_map (f : Int → Int) (l : List Int) (k : Nat) (hl : l.length = 3 * k) :
    triples (l.map f) = (triples l).map (fun t => (f t.1, f t.2.1, f t.2.2)) := by
  induction k generalizing l with
  | zero =>
    have : l = [] := List.length_eq_zero.mp (by omega)
    subst this
    rfl
  | succ k ih =>
    match l, hl with
    | a :: b :: c :: rest, hl =>
      have hr : rest.length = 3 * k := by
        simp only [List.length_cons] at hl
        omega
      simp only [List.map_cons, triples, ih rest hr]
    | [], hl => simp at hl
    | [_], hl => simp at hl; omega
    | [_, _], hl => simp at hl; omega

theorem loaded_faces {α : Type} [Zero α] (atof : CStr → α) (atoi : CStr → Int)
    (content : List Char) (m : model α)
    (h : (model_load_from_obj atof atoi model_init (some content)).1 = some m) :
    m.faces = (lines_faces atoi 0 (file_lines content)).map (repair_triple m.vertex_count) := by
  obtain ⟨m0, h0, hm⟩ := model_load_from_obj_some atof atoi content m h
  obtain ⟨w1, _, _⟩ := load_loop_spec atof atoi (file_lines content) model_init m0
    model_init_well_formed h0
  have hf := load_loop_faces atof atoi (file_lines content) model_init m0
    model_init_well_formed h0
  have hinit : (model_init : model α).faces = [] := rfl
  rw [hinit, List.nil_append] at hf
  obtain ⟨v1, v2⟩ := validated_indices m0 w1
  rw [← hm] at v1 v2
  unfold model.faces at hf ⊢
  rw [v1, triples_map _ _ m0.faces_count (indices_length m0 w1), hf, v2]
  rfl

theorem process_line_face_ok {α : Type} [Zero α] (atof : CStr → α) (atoi : CStr → Int)
    (m : model α) (line : CStr) (args : List CStr) (hf : fields line = ['f'] :: args)
    (hargs : 2 ≤ args.length) : (process_line atof atoi m line).1 ≠ none := by
  intro hnone
  rcases (process_line_none_iff atof atoi m line).mp hnone with ⟨a, ha, hl⟩ | ⟨a, ha, hl⟩
  · rw [hf] at ha
    simp at ha
  · rw [hf] at ha
    simp only [List.cons.injEq, true_and] at ha
    rw [ha] at hargs
    omega

set_option maxRecDepth 1000000 in
/-- C12, counterexample, with the call of `model_init` yielding the mesh it
initialised: in the file `v 0 0 0`, `f 1 1 2`, `v 1 1 1` the index field 2 of
the face line lies outside [-1,-1] and [1,1] when the line is parsed, one
vertex being declared, yet it is stored as 1, not 0, in the returned mesh: the
face is (0,0,1). -/
theorem forward_reference_kept :
    (model_load_from_obj atof_integer libc_atoi model_init (some forward_reference_file)).1.map
      model.faces = some [(0, 0, 1)] ∧
    (model_load_from_obj atof_integer libc_atoi model_init (some forward_reference_file)).1.map
      model.vertex_count = some 2 ∧
    (file_lines forward_reference_file).take 2 = ["v 0 0 0\n".toList, "f 1 1 2\n".toList] := by
  decide

/-- C12, amended: provided the call of `model_init` yields the mesh it
initialised (`made = model_init`: the C function has no `return` statement, so
C does not promise it), when the load succeeds the faces of the returned mesh
are the fans of the face lines, each index field resolved by `relativize_idx`
against the number of vertices declared before its line and then repaired
against the final vertex count.  An index field that is 0 or below `-n` resolves to 0 and
stays 0; an index field above `n` resolves to itself minus 1, and is 0 in the
returned mesh exactly if that value is 0 or is not below the final vertex
count; every resolved index not below the final vertex count is stored as 0;
and a face line with at least two fields never fails the load. -/
theorem loaded_face_indices {α : Type} [Zero α] (atof : CStr → α) (atoi : CStr → Int)
    (made : model α) (hmade : made = model_init) (content : List Char) (m : model α)
    (h : (model_load_from_obj atof atoi made (some content)).1 = some m) :
    m.faces = (lines_faces atoi 0 (file_lines content)).map (repair_triple m.vertex_count) ∧
    (∀ (n : Nat) (i : Int), (i = 0 ∨ i < -(n : Int)) →
      resolve n i = 0 ∧ repair_index m.vertex_count (resolve n i) = 0) ∧
    (∀ (n : Nat) (i : Int), (n : Int) < i →
      resolve n i = i - 1 ∧
      (repair_index m.vertex_count (resolve n i) = 0 ↔
        (i = 1 ∨ (m.vertex_count : Int) ≤ i - 1))) ∧
    (∀ x : Int, (m.vertex_count : Int) ≤ x → repair_index m.vertex_count x = 0) ∧
    (∀ (m0 : model α) (line : CStr) (args : List CStr), fields line = ['f'] :: args →
      2 ≤ args.length → (process_line atof atoi m0 line).1 ≠ none) := by
  subst hmade
  refine ⟨loaded_faces atof atoi content m h, ?_, ?_, ?_, ?_⟩
  · intro n i hi
    have hr : resolve n i = 0 := by
      unfold resolve
      rw [relativize_idx_invalid i n hi]
    rw [hr]
    exact ⟨rfl, by simp [repair_index]⟩
  · intro n i hi
    have hr : resolve n i = i - 1 := resolve_positive n i (by omega)
    rw [hr]
    refine ⟨rfl, ?_⟩
    unfold repair_index
    split_ifs with hc
    · simp only [true_iff]
      right
      exact hc
    · constructor
      · intro h0
        left
        omega
      · rintro (h1 | h1)
        · omega
        · exact absurd h1 hc
  · intro x hx
    simp [repair_index, hx]
  · intro m0 line args hf hargs
    exact process_line_face_ok atof atoi m0 line args hf hargs

theorem loaded_face_indices_witness :
    ((model_init : model Int) = model_init ∧
      (model_load_from_obj atof_integer libc_atoi model_init (some quad_file)).1 =
        some quad_mesh) ∧
    (quad_mesh.faces =
      (lines_faces libc_atoi 0 (file_lines quad_file)).map
        (repair_triple quad_mesh.vertex_count) ∧
    (∀ (n : Nat) (i : Int), (i = 0 ∨ i < -(n : Int)) →
      resolve n i = 0 ∧ repair_index quad_mesh.vertex_count (resolve n i) = 0) ∧
    (∀ (n : Nat) (i : Int), (n : Int) < i →
      resolve n i = i - 1 ∧
      (repair_index quad_mesh.vertex_count (resolve n i) = 0 ↔
        (i = 1 ∨ (quad_mesh.vertex_count : Int) ≤ i - 1))) ∧
    (∀ x : Int, (quad_mesh.vertex_count : Int) ≤ x →
      repair_index quad_mesh.vertex_count x = 0) ∧
    (∀ (m0 : model Int) (line : CStr) (args : List CStr), fields line = ['f'] :: args →
      2 ≤ args.length → (process_line atof_integer libc_atoi m0 line).1 ≠ none)) :=
  ⟨⟨rfl, quad_file_loads⟩,
    loaded_face_indices atof_integer libc_atoi model_init rfl quad_file quad_mesh
      quad_file_loads⟩

/-! Lines the loader passes over -/

end ObjModel
